import Mathlib

/-!
Verification of core RTcmix components against their natural-language
specification.

The development shallowly embeds the relevant C/C++ code:

* `src/parser/minc/Node.cpp` — the Minc interpreter's numeric operator
  evaluation (`NodeOp::do_op_num`), the user-function call machinery
  (`NodeCall::callMincFunctionFromNode`, `NodeRet::doExct`) and the
  argument-list prologue (`NodeArgListElem::doExct`);
* the Minc builtin `_minc_substring` (builtins.cpp);
* the tempo map (`tempo.c`: `tbase`, `tempo`, `time_beat`, `beat_time`);
* the bus graph (`src/rtcmix/bus_config.cpp`: `parse_bus_chan`,
  `parse_bus_name`, `check_bus_inst_config`, `insert_bus_slot`,
  `bf_traverse`, `create_play_order`, `bus_config`).

C doubles are embedded as real numbers (`ℝ`), so IEEE rounding, infinities
and NaNs are idealized away; where a division by zero occurs the C code
produces an IEEE infinity or NaN while the `ℝ` model produces Lean's junk
value `0` — every theorem that touches such a point notes it.  C strings
are embedded as `List Char`, C `short`/`int` as `ℤ` or `ℕ`, and arrays as
functions out of `ℕ` updated pointwise.
-/

deriving instance DecidableEq for Except

namespace RTcmixSpec

/-! ## Minc numeric operators (`NodeOp::do_op_num`, Node.cpp) -/

/-- Operator kinds dispatched by `NodeOp` (subset reaching `do_op_num`). -/
inductive OpKind where
  | OpPlus | OpMinus | OpMul | OpDiv | OpMod | OpPow | OpNeg
  deriving DecidableEq, Repr

open Classical in
/-- C cast `(long)x` for a double `x`: truncation toward zero. -/
noncomputable def ctrunc (x : ℝ) : ℤ :=
  if 0 ≤ x then ⌊x⌋ else ⌈x⌉

open Classical in
/-- `NodeOp::do_op_num` (Node.cpp).  Returns the value stored into
`this->v` together with a flag recording whether a diagnostic was issued
through `minc_die` (the only diagnostic on this path is the
"Illegal value for RHS of a modulo operation" error).  `OpDiv` performs
the raw C division `val1 / val2` with no zero test: in C a zero divisor
yields an IEEE infinity or NaN; in this `ℝ` model it yields the junk
value `0`.  `OpPow` is C `pow`, embedded as the real power `Real.rpow`.
`OpMod` casts both operands to `long` and applies C `%`, which is
truncated division remainder (`Int.tmod`). -/
noncomputable def do_op_num (val1 val2 : ℝ) (op : OpKind) : ℝ × Bool :=
  match op with
  | .OpPlus  => (val1 + val2, false)
  | .OpMinus => (val1 - val2, false)
  | .OpMul   => (val1 * val2, false)
  | .OpDiv   => (val1 / val2, false)
  | .OpMod   =>
      if val2 < 1 ∧ -1 < val2 then (0, true)
      else ((((ctrunc val1).tmod (ctrunc val2) : ℤ) : ℝ), false)
  | .OpPow   => (Real.rpow val1 val2, false)
  | .OpNeg   => (-val1, false)

/-! ## Minc builtin `substring` (`_minc_substring`, builtins.cpp) -/

/-- `_minc_substring(s, startIdx, endIdx)` on an already-unpacked string
and float-truncated indices.  Mirrors the C body: the guard
`startIdx < 0 || endIdx <= startIdx` reports "illegal indices" and
returns a null string (modelled `none`); `endIdx > len - 1` clamps the
end index to `len - 1` (with a warning); the copied buffer is terminated
at offset `endIdx - startIdx`, so the result holds the characters at
indices `startIdx, …, endIdx - 1` of `s`. -/
def minc_substring (s : List Char) (startIdx endIdx : ℤ) : Option (List Char) :=
  let len : ℤ := s.length
  if startIdx < 0 ∨ endIdx ≤ startIdx then none
  else
    let e := if len - 1 < endIdx then len - 1 else endIdx
    some ((s.drop startIdx.toNat).take (e - startIdx).toNat)

/-! ## Theorems for claims C3 and C6 -/

/-- Claim C3, counterexample.  The claim asserts that a zero right-hand
side for `/` "causes an error to be reported to the host diagnostic
channel and the expression to yield a safe zero result".  At
`val1 = 1, val2 = 0`, `do_op_num` performs the division with no zero
test and reports nothing (in C the value is the IEEE infinity `1/0.0`;
the error flag is `false` either way), refuting the claim. -/
theorem do_op_num_div_zero_cex :
    ¬ ((do_op_num 1 0 OpKind.OpDiv).2 = true ∧ (do_op_num 1 0 OpKind.OpDiv).1 = 0) := by
  intro h
  have h2 := h.1
  rw [show (do_op_num 1 0 OpKind.OpDiv).2 = false from rfl] at h2
  exact Bool.false_ne_true h2

/-- Claim C3, amended.  For two Float operands, `%` computes integer
modulo on the truncated operands (`(long)val1 % (long)val2`, C truncated
remainder) and reports the "Illegal value for RHS" error yielding 0
whenever `-1 < rhs < 1` — in particular for a zero right-hand side.
`/`, by contrast, performs the division unchecked: no diagnostic is ever
issued (in C a zero divisor produces an IEEE infinity or NaN, not a safe
zero). -/
theorem do_op_num_mod_div_spec (v1 v2 : ℝ) :
    (v2 < 1 ∧ -1 < v2 → do_op_num v1 v2 OpKind.OpMod = (0, true)) ∧
    (¬(v2 < 1 ∧ -1 < v2) →
      do_op_num v1 v2 OpKind.OpMod = ((((ctrunc v1).tmod (ctrunc v2) : ℤ) : ℝ), false)) ∧
    do_op_num v1 v2 OpKind.OpDiv = (v1 / v2, false) := by
  refine ⟨fun h => ?_, fun h => ?_, rfl⟩
  · simp only [do_op_num, if_pos h]
  · simp only [do_op_num, if_neg h]

/-- Claim C3, witness: `7 % 0` reports the illegal-RHS error and yields
0; `7 % 2 = 1` with no error; `7 / 0` is the raw division with no
error. -/
theorem do_op_num_mod_div_spec_witness :
    do_op_num 7 0 OpKind.OpMod = (0, true) ∧
    do_op_num 7 2 OpKind.OpMod = (1, false) ∧
    do_op_num 7 0 OpKind.OpDiv = (7 / 0, false) := by
  refine ⟨(do_op_num_mod_div_spec 7 0).1 ⟨by norm_num, by norm_num⟩, ?_,
    (do_op_num_mod_div_spec 7 0).2.2⟩
  have h := (do_op_num_mod_div_spec 7 2).2.1 (by norm_num)
  rw [h]
  have h7 : ctrunc 7 = 7 := by
    rw [ctrunc, if_pos (by norm_num : (0:ℝ) ≤ 7)]
    rw [show (7:ℝ) = ((7:ℤ):ℝ) by norm_num, Int.floor_intCast]
  have h2 : ctrunc 2 = 2 := by
    rw [ctrunc, if_pos (by norm_num : (0:ℝ) ≤ 2)]
    rw [show (2:ℝ) = ((2:ℤ):ℝ) by norm_num, Int.floor_intCast]
  rw [h7, h2]
  norm_num
  decide

/-- Claim C6, counterexample.  The claim quantifies over all
`0 ≤ i ≤ j ≤ len(s)`, but at `s = "ab", i = j = 0` the call
`substring(s, 0, 0)` trips the `endIdx <= startIdx` guard, warns
"illegal indices" and returns a null string rather than an empty one,
so no strings witness the claimed concatenation identity there. -/
theorem substring_concat_cex :
    ¬ ∃ a b c : List Char,
      minc_substring (['a', 'b']) 0 0 = some a ∧
      minc_substring (['a', 'b']) 0 2 = some b ∧
      minc_substring (['a', 'b']) 0 2 = some c ∧
      a ++ b = c := by
  rintro ⟨a, b, c, h1, -⟩
  have hnone : minc_substring (['a', 'b']) 0 0 = none := by decide
  rw [hnone] at h1
  exact Option.noConfusion h1

/-- Claim C6, amended.  For `0 ≤ i ≤ j ≤ len(s)`, reading a null result
(returned with an "illegal indices" warning when the range is empty,
i.e. when `i = j` or `j = len = i`) as the empty string, the
concatenation of `substring(s, i, j)` and `substring(s, j, len(s))`
equals `substring(s, i, len(s))`; when `0 ≤ i < j < len` all three calls
succeed outright.  (`substring` returns the characters at indices
`[start, end)` with an end index beyond `len - 1` clamped to `len - 1`,
so the final character of `s` is never included; negative or reversed or
empty ranges are errors.) -/
theorem substring_concat (s : List Char) (i j : ℤ)
    (h0 : 0 ≤ i) (hij : i ≤ j) (hj : j ≤ (s.length : ℤ)) :
    (minc_substring s i j).getD [] ++ (minc_substring s j (s.length : ℤ)).getD [] =
      (minc_substring s i (s.length : ℤ)).getD [] := by
  rcases eq_or_lt_of_le hij with heq | hlt
  · subst heq
    have h1 : minc_substring s i i = none := by
      simp [minc_substring]
    rw [h1]
    simp
  · rcases eq_or_lt_of_le hj with hjlen | hjlt
    · subst hjlen
      have h2 : minc_substring s (s.length : ℤ) (s.length : ℤ) = none := by
        simp [minc_substring]
      rw [h2]
      simp
    · have hbounds : ¬(i < 0 ∨ j ≤ i) := by omega
      have hb2 : ¬(j < 0 ∨ (s.length : ℤ) ≤ j) := by omega
      have hb3 : ¬(i < 0 ∨ (s.length : ℤ) ≤ i) := by omega
      have he1 : ¬((s.length : ℤ) - 1 < j) := by omega
      have he2 : (s.length : ℤ) - 1 < (s.length : ℤ) := by omega
      simp only [minc_substring, if_neg hbounds, if_neg hb2, if_neg hb3, if_neg he1,
        if_pos he2, Option.getD_some]
      have hn1 : (j - i).toNat = j.toNat - i.toNat := by omega
      have hn2 : ((s.length : ℤ) - 1 - j).toNat = (s.length - 1) - j.toNat := by omega
      have hn3 : ((s.length : ℤ) - 1 - i).toNat = (s.length - 1) - i.toNat := by omega
      rw [hn1, hn2, hn3]
      have key : s.length - 1 - i.toNat = (j.toNat - i.toNat) + (s.length - 1 - j.toNat) := by
        omega
      rw [key, List.take_add]
      congr 1
      rw [List.drop_drop]
      have : i.toNat + (j.toNat - i.toNat) = j.toNat := by omega
      rw [this]

/-- Claim C6, witness: on `s = "hello"`, `i = 1`, `j = 3` the identity
holds with concrete values (`"el" ++ "l" = "ell"`, the clamp dropping the
final `'o'`). -/
theorem substring_concat_witness :
    (0:ℤ) ≤ 1 ∧ (1:ℤ) ≤ 3 ∧ (3:ℤ) ≤ ((['h', 'e', 'l', 'l', 'o'] : List Char).length : ℤ) ∧
    (minc_substring (['h', 'e', 'l', 'l', 'o']) 1 3).getD [] ++
        (minc_substring (['h', 'e', 'l', 'l', 'o']) 3 5).getD [] =
      (minc_substring (['h', 'e', 'l', 'l', 'o']) 1 5).getD [] :=
  ⟨by norm_num, by norm_num, by norm_num,
    substring_concat (['h', 'e', 'l', 'l', 'o']) 1 3 (by norm_num) (by norm_num) (by norm_num)⟩

/-! ## Bus name parsing (`parse_bus_chan`, `parse_bus_name`, bus_config.cpp) -/

/-- Error taxonomy of the bus-configuration surface (bus.h / ugens.h). -/
inductive ErrCode where
  | NO_ERR | LOOP_ERR | INVAL_BUS_ERR | INVAL_BUS_CHAN_ERR
  | PARAM_ERROR | MEMORY_ERROR | SYSTEM_ERROR | UNKNOWN_ERR
  deriving DecidableEq, Repr

/-- Bus types assigned by `parse_bus_name`. -/
inductive BusType where
  | BUS_IN | BUS_OUT | BUS_AUX_IN | BUS_AUX_OUT | BUS_NONE_IN | BUS_NONE_OUT
  deriving DecidableEq, Repr

/-- C `isspace` on the default locale (the six standard space characters),
as skipped by `strtol`. -/
def c_isspace (c : Char) : Bool :=
  c = ' ' || c = '\t' || c = '\n' || c = '\x0B' || c = '\x0C' || c = '\r'

/-- Value of a digit string (most significant first). -/
def digitsToVal (ds : List Char) : ℕ :=
  ds.foldl (fun acc c => 10 * acc + (c.toNat - 48)) 0

/-- `strtoint` (bus_config.cpp), i.e. `strtol(str, &pos, 10)` plus the
`pos == str` "no digits to convert" test: skip spaces, optional sign,
then a maximal digit run; `none` when no digit was converted.  The
`errno == ERANGE` overflow test cannot fire in this unbounded `ℤ`
model. -/
def strtoint (s : List Char) : Option ℤ :=
  let t := s.dropWhile c_isspace
  let su : ℤ × List Char :=
    match t with
    | c :: r => if c = '-' then (-1, r) else if c = '+' then (1, r) else (1, t)
    | [] => (1, t)
  let ds := su.2.takeWhile Char.isDigit
  if ds = [] then none
  else some (su.1 * (digitsToVal ds : ℤ))

/-- `strchr(s, c)` followed by `p++`: the suffix of `s` after the first
occurrence of `c`, or `none` when `c` does not occur. -/
def afterChar (s : List Char) (c : Char) : Option (List Char) :=
  match s with
  | [] => none
  | x :: r => if x = c then some r else afterChar r c

/-- `parse_bus_chan(numstr, &startchan, &endchan, maxBus)`
(bus_config.cpp).  Parses `<a>` or `<a>-<b>`; a missing `-` part makes
`endchan = startchan`.  The only range check performed is
`*startchan >= maxBus || *endchan >= maxBus`; neither `endchan ≥
startchan` nor nonnegativity is tested. -/
def parse_bus_chan (numstr : List Char) (maxBus : ℤ) : Except ErrCode (ℤ × ℤ) :=
  match strtoint numstr with
  | none => .error .INVAL_BUS_CHAN_ERR
  | some startchan =>
      match (match afterChar numstr '-' with
             | some p => strtoint p
             | none => some startchan) with
      | none => .error .INVAL_BUS_CHAN_ERR
      | some endchan =>
          if maxBus ≤ startchan ∨ maxBus ≤ endchan then .error .INVAL_BUS_CHAN_ERR
          else .ok (startchan, endchan)

/-- `parse_bus_name(busname, &type, &startchan, &endchan, maxBus)`
(bus_config.cpp).  Dispatches on the first character (`i`/`o`/`a`/`c`),
skips the keyword prefix and hands the remainder to `parse_bus_chan`;
for `aux…` the in/out flavor is decided by `strchr` over the whole name,
for `chain…` over the part after the five-character prefix. -/
def parse_bus_name (busname : List Char) (maxBus : ℤ) :
    Except ErrCode (BusType × ℤ × ℤ) :=
  match busname with
  | [] => .error .INVAL_BUS_ERR
  | c :: _ =>
    if c = 'i' then
      (parse_bus_chan (busname.drop 2) maxBus).map (fun r => (BusType.BUS_IN, r.1, r.2))
    else if c = 'o' then
      (parse_bus_chan (busname.drop 3) maxBus).map (fun r => (BusType.BUS_OUT, r.1, r.2))
    else if c = 'a' then
      if busname.contains 'i' then
        (parse_bus_chan (busname.drop 3) maxBus).map (fun r => (BusType.BUS_AUX_IN, r.1, r.2))
      else if busname.contains 'o' then
        (parse_bus_chan (busname.drop 3) maxBus).map (fun r => (BusType.BUS_AUX_OUT, r.1, r.2))
      else .error .INVAL_BUS_ERR
    else if c = 'c' then
      if (busname.drop 5).contains 'i' then
        (parse_bus_chan (busname.drop 5) maxBus).map (fun r => (BusType.BUS_NONE_IN, r.1, r.2))
      else if (busname.drop 5).contains 'o' then
        (parse_bus_chan (busname.drop 5) maxBus).map (fun r => (BusType.BUS_NONE_OUT, r.1, r.2))
      else .error .INVAL_BUS_ERR
    else .error .INVAL_BUS_ERR

/-- A successful `parse_bus_chan` only guarantees the upper bound
`maxBus` on both endpoints. -/
theorem parse_bus_chan_ok_bounds (numstr : List Char) (maxBus a b : ℤ)
    (h : parse_bus_chan numstr maxBus = Except.ok (a, b)) : a < maxBus ∧ b < maxBus := by
  unfold parse_bus_chan at h
  split at h
  · exact Except.noConfusion h
  · split at h
    · exact Except.noConfusion h
    · split at h
      · exact Except.noConfusion h
      · rename_i hc
        cases h
        push_neg at hc
        exact hc

/-- Discarding the bus-type component of a successful `parse_bus_name`
recovers the underlying `parse_bus_chan` result. -/
theorem except_map_ok_pair {x : Except ErrCode (ℤ × ℤ)} {t t' : BusType} {a b : ℤ}
    (h : x.map (fun r => (t, r.1, r.2)) = Except.ok (t', a, b)) : x = Except.ok (a, b) := by
  rcases x with e | ⟨s, f⟩
  · exact Except.noConfusion h
  · simp only [Except.map, Except.ok.injEq, Prod.mk.injEq] at h
    rw [h.2.1, h.2.2]

/-- Claim C9, counterexample.  `parse_bus_name("in3-1", …, 48)` succeeds
with `startchan = 3, endchan = 1` even though the range is reversed
(`b < a`), refuting "the parse succeeds only if the endpoints satisfy
`b ≥ a`". -/
theorem parse_bus_name_rev_range_cex :
    parse_bus_name (['i', 'n', '3', '-', '1']) 48 = Except.ok (BusType.BUS_IN, 3, 1) ∧
      (1 : ℤ) < 3 := by
  constructor
  · decide
  · norm_num

/-- Claim C9, amended.  For every bus-name string accepted by
`parse_bus_name`, the parse succeeds only if both endpoints are
`< busCount`; a range with either endpoint `≥ busCount` is rejected with
`INVAL_BUS_CHAN_ERR`.  The constraint `b ≥ a` of the claim is never
checked (reversed — and even negative — ranges are accepted). -/
theorem parse_bus_name_range_spec (busname numstr : List Char) (maxBus a b : ℤ)
    (t : BusType) :
    (parse_bus_name busname maxBus = Except.ok (t, a, b) → a < maxBus ∧ b < maxBus) ∧
    ((maxBus ≤ a ∨ maxBus ≤ b) → strtoint numstr = some a →
      (match afterChar numstr '-' with
       | some p => strtoint p
       | none => some a) = some b →
      parse_bus_chan numstr maxBus = Except.error ErrCode.INVAL_BUS_CHAN_ERR) := by
  constructor
  · intro h
    unfold parse_bus_name at h
    split at h
    · exact Except.noConfusion h
    · split_ifs at h <;>
        first
        | exact Except.noConfusion h
        | exact parse_bus_chan_ok_bounds _ _ _ _ (except_map_ok_pair h)
  · intro hviol hs he
    simp only [parse_bus_chan, hs, he, if_pos hviol]

/-- Claim C9, witness: `"in3-1"` parses successfully with both endpoints
below 48, and the range string `"5-60"` with endpoint 60 ≥ 48 is
rejected with `INVAL_BUS_CHAN_ERR`. -/
theorem parse_bus_name_range_spec_witness :
    ((3 : ℤ) < 48 ∧ (1 : ℤ) < 48) ∧
    parse_bus_chan (['5', '-', '6', '0']) 48 = Except.error ErrCode.INVAL_BUS_CHAN_ERR := by
  constructor
  · exact (parse_bus_name_range_spec (['i', 'n', '3', '-', '1']) [] 48 3 1
      BusType.BUS_IN).1 (by decide)
  · exact (parse_bus_name_range_spec [] (['5', '-', '6', '0']) 48 5 60
      BusType.BUS_IN).2 (by norm_num) (by decide) (by decide)

/-! ## Minc values and the function-argument prologue
(`NodeArgListElem::doExct`, Node.cpp) -/

/-- The Minc data type tags (minc_internal.h). -/
inductive MincDataType where
  | MincVoidType | MincFloatType | MincStringType | MincHandleType
  | MincListType | MincMapType | MincStructType | MincFunctionType
  deriving DecidableEq, Repr

/-- A Minc value: a tagged union.  Pointer-valued members may be NULL
(`none`); handles, maps, structs and functions are opaque here beyond
their tag. -/
inductive MincValue where
  | void
  | float (x : ℝ)
  | str (s : Option (List Char))
  | handle (h : Option ℕ)
  | list (elems : Option (List MincValue))
  | map (entries : Option ℕ)
  | struct (members : Option ℕ)
  | func (f : Option ℕ)

/-- The type tag of a value. -/
def MincValue.dataType : MincValue → MincDataType
  | .void => .MincVoidType
  | .float _ => .MincFloatType
  | .str _ => .MincStringType
  | .handle _ => .MincHandleType
  | .list _ => .MincListType
  | .map _ => .MincMapType
  | .struct _ => .MincStructType
  | .func _ => .MincFunctionType

/-- Modelled from the spec: `MincValue::zero()` (MincValue.cpp, which is
not among the sources here) zeroes the union while the captured data
type is kept, so a defaulted argument receives "a zero-typed default" —
float 0 or a NULL pointer of the declared type.  This is the value
`zeroElem` copied into a missing argument by `NodeArgListElem::doExct`,
starting from the declared symbol's default value. -/
def zeroOf : MincDataType → MincValue
  | .MincVoidType => .void
  | .MincFloatType => .float 0
  | .MincStringType => .str none
  | .MincHandleType => .handle none
  | .MincListType => .list none
  | .MincMapType => .map none
  | .MincStructType => .struct none
  | .MincFunctionType => .func none

/-- Fatal diagnostics that abort the argument walk. -/
inductive ArgError where
  | tooMany | typeMismatch | internalError
  deriving DecidableEq, Repr

/-- One `NodeArgListElem::doExct` per declared argument (Node.cpp).
In the C walk every element first bumps `sArgListLen` and recurses
towards the front of the list, so by the time any element's checks run,
`sArgListLen` equals the full declared count (`total` here); elements
are then processed front to back with `sArgListIndex = idx`.  Checks,
in order: `sMincListLen > sArgListLen` is the fatal "takes %d arguments
but was passed %d" error; `sArgListIndex >= sMincListLen` defaults the
argument to a zero of the declared type, warning when
`sMincWarningLevel > MincNoDefaultedArgWarnings`; otherwise the passed
value must carry a handled tag (`MincVoidType` hits the
`minc_internal_error` default) equal to the declared one, else the
fatal passed-as/expecting error.  Returns the bound values in
declaration order together with the number of warnings issued. -/
def argListElems (warningLevel noDefaultedLevel : ℤ) (total : ℕ)
    (passed : List MincValue) :
    List MincDataType → ℕ → Except ArgError (List MincValue × ℕ)
  | [], _ => .ok ([], 0)
  | ty :: rest, idx =>
      if total < passed.length then .error .tooMany
      else if passed.length ≤ idx then
        match argListElems warningLevel noDefaultedLevel total passed rest (idx + 1) with
        | .error e => .error e
        | .ok (vs, w) =>
            .ok (zeroOf ty :: vs, (if noDefaultedLevel < warningLevel then 1 else 0) + w)
      else
        let v := passed.getD idx .void
        if v.dataType = .MincVoidType then .error .internalError
        else if v.dataType ≠ ty then .error .typeMismatch
        else
          match argListElems warningLevel noDefaultedLevel total passed rest (idx + 1) with
          | .error e => .error e
          | .ok (vs, w) => .ok (v :: vs, w)

/-- `NodeArgList::doExct` followed by the element walk: resets the
counters and walks the declaration list against the caller-provided
argument values `passed` (`sMincList`/`sMincListLen`). -/
def argListWalk (warningLevel noDefaultedLevel : ℤ) (decls : List MincDataType)
    (passed : List MincValue) : Except ArgError (List MincValue × ℕ) :=
  argListElems warningLevel noDefaultedLevel decls.length passed decls 0

theorem argListElems_ok (wl nd : ℤ) (total : ℕ) (passed : List MincValue)
    (hle : passed.length ≤ total) :
    ∀ (ds : List MincDataType) (idx : ℕ),
    (∀ k, k < ds.length → idx + k < passed.length →
      (passed.getD (idx + k) .void).dataType = ds.getD k .MincVoidType ∧
      (passed.getD (idx + k) .void).dataType ≠ .MincVoidType) →
    argListElems wl nd total passed ds idx =
      .ok ((passed.drop idx).take ds.length ++
             (ds.drop (passed.length - idx)).map zeroOf,
           (if nd < wl then 1 else 0) * (idx + ds.length - max idx passed.length)) := by
  intro ds
  induction ds with
  | nil =>
      intro idx _
      simp [argListElems]
  | cons ty rest ih =>
      intro idx hty
      rw [argListElems, if_neg (not_lt.mpr hle)]
      by_cases hidx : passed.length ≤ idx
      · rw [if_pos hidx]
        have hrec := ih (idx + 1) (fun k _ hik => absurd hik (by omega))
        simp only [hrec]
        have hdrop : passed.drop idx = [] := List.drop_eq_nil_of_le hidx
        have hdrop1 : passed.drop (idx + 1) = [] := List.drop_eq_nil_of_le (by omega)
        have h0 : passed.length - idx = 0 := by omega
        have h1 : passed.length - (idx + 1) = 0 := by omega
        rw [hdrop, hdrop1, h0, h1]
        simp only [List.take_nil, List.drop_zero, List.nil_append, List.map_cons,
          Except.ok.injEq, Prod.mk.injEq, List.length_cons]
        refine ⟨by trivial, ?_⟩
        by_cases hg : nd < wl <;> simp only [hg, if_true, if_false] <;> omega
      · rw [if_neg hidx]
        push_neg at hidx
        have hv := hty 0 (by simp) (by omega)
        simp only [Nat.add_zero, List.getD_cons_zero] at hv
        rw [if_neg hv.2, if_neg (by rw [hv.1]; simp)]
        have hrec := ih (idx + 1) (fun k hk hik => by
          have h := hty (k + 1) (Nat.succ_lt_succ hk) (by omega)
          have he : idx + (k + 1) = idx + 1 + k := by omega
          rw [he] at h
          simpa using h)
        simp only [hrec]
        have hcons : passed.drop idx = passed.getD idx .void :: passed.drop (idx + 1) := by
          rw [List.getD_eq_getElem _ _ hidx]
          exact List.drop_eq_getElem_cons hidx
        rw [hcons]
        simp only [List.take_succ_cons, List.cons_append, Except.ok.injEq, Prod.mk.injEq,
          List.length_cons]
        have h2 : passed.length - idx = (passed.length - (idx + 1)) + 1 := by omega
        rw [h2, List.drop_succ_cons]
        refine ⟨by trivial, ?_⟩
        congr 1
        omega

/-- Claim C8: calling a user-defined function with more arguments than
its declaration lists fails with the fatal
"takes %d arguments but was passed %d" error; calling it with fewer
arguments than declared binds each missing argument to a zero value of
its declared type, issuing one warning per defaulted argument exactly
when the Minc warning level exceeds `MincNoDefaultedArgWarnings`, and
the call proceeds.  (The declaration list is assumed nonempty — a
function declaring no arguments runs no `NodeArgListElem` and hence no
check — and each provided argument is assumed to match its declared
type and carry a handled tag, the cases in which the walk instead dies
with the passed-as/expecting or internal error.) -/
theorem arg_list_arity_spec (wl nd : ℤ) (decls : List MincDataType)
    (passed : List MincValue) :
    (decls ≠ [] → decls.length < passed.length →
      argListWalk wl nd decls passed = .error .tooMany) ∧
    (passed.length ≤ decls.length →
      (∀ k, k < passed.length →
        (passed.getD k .void).dataType = decls.getD k .MincVoidType ∧
        (passed.getD k .void).dataType ≠ .MincVoidType) →
      argListWalk wl nd decls passed =
        .ok (passed ++ (decls.drop passed.length).map zeroOf,
             if nd < wl then decls.length - passed.length else 0)) := by
  constructor
  · intro hne hlt
    rcases decls with - | ⟨ty, rest⟩
    · exact absurd rfl hne
    · rw [argListWalk, argListElems, if_pos hlt]
  · intro hle hty
    rw [argListWalk,
      argListElems_ok wl nd decls.length passed hle decls 0
        (fun k hk hik => by simpa using hty k (by simpa using hik))]
    have h1 : (passed.drop 0).take decls.length = passed := by
      rw [List.drop_zero]
      exact List.take_of_length_le hle
    have h2 : passed.length - 0 = passed.length := by omega
    rw [h1, h2]
    by_cases hg : nd < wl <;>
      simp only [hg, if_true, if_false, Except.ok.injEq, Prod.mk.injEq] <;>
      refine ⟨by trivial, by omega⟩

/-- Claim C8, witness: with warnings enabled (level 1 > gate 0),
declarations `(float, string, float)` and a single passed float bind
the two missing arguments to typed zeros with two warnings; passing two
values to a single declared argument is the fatal arity error. -/
theorem arg_list_arity_spec_witness :
    argListWalk 1 0 [MincDataType.MincFloatType, MincDataType.MincStringType,
        MincDataType.MincFloatType] [MincValue.float 9] =
      .ok ([MincValue.float 9, MincValue.str none, MincValue.float 0], 2) ∧
    argListWalk 1 0 [MincDataType.MincFloatType]
        [MincValue.float 9, MincValue.float 8] = .error .tooMany := by
  constructor
  · have h := (arg_list_arity_spec 1 0
      [MincDataType.MincFloatType, MincDataType.MincStringType, MincDataType.MincFloatType]
      [MincValue.float 9]).2 (by simp)
      (fun k hk => by
        have hk0 : k = 0 := by simp at hk; omega
        subst hk0
        exact ⟨rfl, by simp [MincValue.dataType]⟩)
    rw [h]
    rfl
  · exact (arg_list_arity_spec 1 0 [MincDataType.MincFloatType]
      [MincValue.float 9, MincValue.float 8]).1 (by simp) (by simp)

/-- Claim C8, counterexample: a function declaring no parameters (the
spec's own S5 `P.get()` is one) accepts extra arguments without any
diagnostic.  The only arity check lives in `NodeArgListElem::doExct`
(Node.cpp line 1492), and a zero-parameter declaration has no
`NodeArgListElem` nodes, so the walk over the empty declaration list
returns success immediately: one argument passed, zero declared, no
fatal "takes %d arguments but was passed %d" error — refuting the
claim that calling with more arguments than declared is fatal. -/
theorem arg_list_zero_param_cex :
    0 < ([MincValue.float 9] : List MincValue).length ∧
    argListWalk 1 0 [] [MincValue.float 9] = .ok ([], 0) :=
  ⟨Nat.one_pos, rfl⟩

/-! ## Scope hygiene of the user-function call protocol
(`NodeCall::callMincFunctionFromNode` and `NodeRet::doExct`, Node.cpp) -/

/-- Modelled from the spec: the scope machinery of §4.2 (Symbol.cpp /
minc_internal.h, not among the sources here).  Scopes form a stack whose
current index is `cur`; `pushFunctionStack()` / `popFunctionStack()`
"bracket a call so that nonlocal control transfer can unwind safely",
i.e. the pop restores the scope position saved by the matching push
(`fnStack` records the saved positions, innermost first). -/
structure ScopeState where
  cur : ℕ
  fnStack : List ℕ
  deriving DecidableEq, Repr

/-- Modelled from the spec: `pushScope()` enters a fresh scope. -/
def push_scope (s : ScopeState) : ScopeState :=
  { s with cur := s.cur + 1 }

/-- Modelled from the spec: `restoreScope(savedIndex)` resets the
current scope index. -/
def restore_scope (saved : ℕ) (s : ScopeState) : ScopeState :=
  { s with cur := saved }

/-- Modelled from the spec: `currentScope()`. -/
def current_scope (s : ScopeState) : ℕ := s.cur

/-- Modelled from the spec: `pushFunctionStack()` saves the current
scope position. -/
def push_function_stack (s : ScopeState) : ScopeState :=
  { s with fnStack := s.cur :: s.fnStack }

/-- Modelled from the spec: `popFunctionStack()` unwinds to the scope
position saved by the matching push. -/
def pop_function_stack (s : ScopeState) : ScopeState :=
  match s.fnStack with
  | [] => s
  | saved :: rest => { cur := saved, fnStack := rest }

/-- How the executed function body leaves the call: a normal completion,
or a `Ret` nonlocal transfer (`NodeRet::doExct` evaluates the returned
expression and throws its node, Node.cpp). -/
inductive BodyOutcome where
  | normal | ret
  deriving DecidableEq, Repr

/-- The scope effect of `NodeCall::callMincFunctionFromNode` (Node.cpp):
`push_function_stack(); push_scope();` then `savedScope =
current_scope()` inside the `try`; the body runs (`theFunction->
execute()`); a thrown return statement is caught and answered with
`restore_scope(savedScope)`; both paths end in `pop_function_stack()`.
The body is abstracted as an arbitrary transformer of the scope state
together with its outcome. -/
def callScopeProtocol (body : ScopeState → BodyOutcome × ScopeState)
    (s : ScopeState) : ScopeState :=
  match body (push_scope (push_function_stack s)) with
  | (.normal, s3) => pop_function_stack s3
  | (.ret, s3) =>
      pop_function_stack
        (restore_scope (current_scope (push_scope (push_function_stack s))) s3)

/-- Claim C7: for any body that is function-stack balanced (it leaves
`fnStack` as it found it — nested calls push and pop in matched pairs),
the current scope index after the call equals its value before the
call, both on normal completion and on a `Ret`-triggered nonlocal
transfer caught at the `Call` node; the function stack is restored as
well. -/
theorem call_scope_hygiene (body : ScopeState → BodyOutcome × ScopeState)
    (s : ScopeState) (hbal : ∀ t, ((body t).2).fnStack = t.fnStack) :
    current_scope (callScopeProtocol body s) = current_scope s ∧
    (callScopeProtocol body s).fnStack = s.fnStack := by
  have key : ∀ t : ScopeState, t.fnStack = s.cur :: s.fnStack →
      current_scope (pop_function_stack t) = current_scope s ∧
      (pop_function_stack t).fnStack = s.fnStack := by
    intro t ht
    unfold pop_function_stack
    rw [ht]
    exact ⟨rfl, rfl⟩
  unfold callScopeProtocol
  rcases hb : body (push_scope (push_function_stack s)) with ⟨outcome, s3⟩
  have h3 : s3.fnStack = s.cur :: s.fnStack := by
    have hh := hbal (push_scope (push_function_stack s))
    rw [hb] at hh
    exact hh
  cases outcome
  · exact key s3 h3
  · exact key _ h3

/-- Claim C7, witness: a body that pushes two scopes, pops neither, and
exits via `Ret` from state `⟨3, [7]⟩` still leaves the scope index at 3
and the function stack at `[7]`. -/
theorem call_scope_hygiene_witness :
    current_scope (callScopeProtocol
        (fun t => (BodyOutcome.ret, push_scope (push_scope t))) ⟨3, [7]⟩) = 3 ∧
    (callScopeProtocol
        (fun t => (BodyOutcome.ret, push_scope (push_scope t))) ⟨3, [7]⟩).fnStack = [7] :=
  call_scope_hygiene (fun t => (BodyOutcome.ret, push_scope (push_scope t)))
    ⟨3, [7]⟩ (fun _ => rfl)

/-! ## The tempo map (tempo.c: `tbase`, `tempo`, `time_beat`, `beat_time`)

The statics of tempo.c: `float xtime[TLENP], temp[TLENP], rxtime[TLENP],
accel[TLENP], BASIS = 60.; short tset = 0, npts;`.  The arrays are
embedded as functions `ℕ → ℝ` updated pointwise; only indices below
`TLENP = 21` are ever accessed, and index 20 is in fact never written
(`npts ≤ 11` always, and the zeroing loop stops at `TLEN = 20`). -/

/-- `TLEN`: maximum number of time/tempo pairs (tempo.c). -/
def TLEN : ℕ := 20

/-- `.999999e+10`, the sentinel closing time of the final segment. -/
def tempoSentinel : ℝ := 9999990000

/-- The static state of tempo.c. -/
structure TempoState where
  xtime : ℕ → ℝ
  temp : ℕ → ℝ
  rxtime : ℕ → ℝ
  accel : ℕ → ℝ
  basis : ℝ
  tset : Bool
  npts : ℕ

/-- The statics at program start: arrays zero, `BASIS = 60`, `tset = 0`,
`npts = 0`. -/
def initTempoState : TempoState :=
  ⟨fun _ => 0, fun _ => 0, fun _ => 0, fun _ => 0, 60, false, 0⟩

/-- `tbase(basis)` (tempo.c): sets `BASIS`. -/
def tbase (p0 : ℝ) (s : TempoState) : TempoState :=
  { s with basis := p0 }

open Classical in
/-- The breakpoint-reading loop of `tempo` (tempo.c):
`for(m=0,npts=1; m<TLEN; m+=2,npts++)`, breaking when `m && m >= n_args`,
otherwise storing `xtime[npts] = p[m]`, `temp[npts] = p[m+1]/BASIS`, and
returning through `die` when the stored tempo is zero (final `Bool`
component `false`; the arrays keep the writes made so far and `npts`
stays at the failing slot).  Reading `p` beyond `n_args` (possible in C
when `n_args` is odd) is indeterminate there and yields the default 0
here. -/
noncomputable def tempoFill (p : List ℝ) (basis : ℝ) (m npts : ℕ)
    (xt tp : ℕ → ℝ) : ((ℕ → ℝ) × (ℕ → ℝ) × ℕ × Bool) :=
  if TLEN ≤ m then (xt, tp, npts, true)
  else if m ≠ 0 ∧ p.length ≤ m then (xt, tp, npts, true)
  else
    let xt2 := Function.update xt npts (p.getD m 0)
    let tp2 := Function.update tp npts (p.getD (m + 1) 0 / basis)
    if tp2 npts = 0 then (xt2, tp2, npts, false)
    else tempoFill p basis (m + 2) (npts + 1) xt2 tp2
termination_by TLEN - m
decreasing_by simp only [TLEN] at *; omega

open Classical in
/-- The per-segment acceleration computed by the second loop of `tempo`:
`accel[m] = (pow(temp[m+1],2) - pow(temp[m],2)) / (2*dur)` for a segment
of nonzero duration, and 0 for an empty segment. -/
noncomputable def accelOf (xt tp : ℕ → ℝ) (m : ℕ) : ℝ :=
  if xt (m + 1) - xt m = 0 then 0
  else (tp (m + 1) ^ 2 - tp m ^ 2) / (2 * (xt (m + 1) - xt m))

open Classical in
/-- The cumulative beat positions computed by the second loop of
`tempo`.  `prvbt` always equals `rxtime[m]` when iteration `m` runs (it
is updated to `rxtime[m+1]` at the end of every iteration and starts at
`rxtime[0] = 0`), so the loop is the recurrence implemented here. -/
noncomputable def rxtimeOf (xt tp : ℕ → ℝ) : ℕ → ℝ
  | 0 => 0
  | m + 1 =>
      if xt (m + 1) - xt m = 0 then rxtimeOf xt tp m
      else if accelOf xt tp m = 0 then
        (xt (m + 1) - xt m) / tp m + rxtimeOf xt tp m
      else
        (Real.sqrt (tp m ^ 2 + 2 * accelOf xt tp m * (xt (m + 1) - xt m)) - tp m) /
          accelOf xt tp m + rxtimeOf xt tp m

/-- The zeroing loop at the head of `tempo`:
`for(m=0;m<TLEN;m++) xtime[m]=temp[m]=rxtime[m]=accel[m]=0;`. -/
def zeroLow (f : ℕ → ℝ) : ℕ → ℝ := fun i => if i < TLEN then 0 else f i

/-- The post-fill fixups of `tempo` on `xtime`:
`xtime[npts] = .999999e+10; xtime[0] = 0;`. -/
noncomputable def postXt (xt : ℕ → ℝ) (np : ℕ) : ℕ → ℝ :=
  Function.update (Function.update xt np tempoSentinel) 0 0

/-- The post-fill fixups of `tempo` on `temp`:
`temp[npts] = temp[npts-1]; temp[0] = temp[1];` (in that order; on the
success path `npts ≥ 2`, so the two writes never collide and `temp[1]`
is unaffected by either). -/
noncomputable def postTp (tp : ℕ → ℝ) (np : ℕ) : ℕ → ℝ :=
  Function.update (Function.update tp np (tp (np - 1))) 0 (tp 1)

open Classical in
/-- `tempo(p, n_args)` (tempo.c).  With no arguments the map is cleared
(`tset = 0`, advisory only).  Otherwise the four arrays are zeroed up to
`TLEN`, breakpoints are read by `tempoFill`; on a zero tempo value the
call dies with the partial writes left in place and `tset` untouched
(second component `false`).  On success `tset = 1`, `xtime[npts]`
becomes the sentinel `.999999e+10` (the matching `rxtime[npts]`
assignment is dead — the last loop iteration overwrites it, as
`npts ≥ 2`), `temp[npts] = temp[npts-1]`, `temp[0] = temp[1]`,
`xtime[0] = rxtime[0] = accel[0] = 0`, and the second loop fills
`accel[0..npts-1]` and `rxtime[1..npts]`. -/
noncomputable def tempo (p : List ℝ) (s : TempoState) : TempoState × Bool :=
  if p.length = 0 then ({ s with tset := false }, true)
  else
    match tempoFill p s.basis 0 1 (zeroLow s.xtime) (zeroLow s.temp) with
    | (xt, tp, np, false) =>
        ({ s with xtime := xt, temp := tp, rxtime := zeroLow s.rxtime,
                  accel := zeroLow s.accel, npts := np }, false)
    | (xt, tp, np, true) =>
        ({ s with
            xtime := postXt xt np,
            temp := postTp tp np,
            rxtime := fun i => if i ≤ np then rxtimeOf (postXt xt np) (postTp tp np) i
                               else zeroLow s.rxtime i,
            accel := fun i => if i < np then accelOf (postXt xt np) (postTp tp np) i
                              else if i = 0 then 0 else zeroLow s.accel i,
            tset := true,
            npts := np }, true)

open Classical in
/-- The segment-search loop of `time_beat` (tempo.c):
`for(m=0; m<=npts; m++)` breaking at the first `m` with
`timein > xtime[m] && timein <= xtime[m+1]`; without a break the loop
leaves `m = npts+1`. -/
noncomputable def tbFind (s : TempoState) (timein : ℝ) (m : ℕ) : ℕ :=
  if s.npts + 1 ≤ m then m
  else if s.xtime m < timein ∧ timein ≤ s.xtime (m + 1) then m
  else tbFind s timein (m + 1)
termination_by s.npts + 1 - m
decreasing_by omega

open Classical in
/-- `time_beat(timein)` (tempo.c).  Negative input is clamped to 0
before the `tset` test; with no map the (clamped) input is returned.
Otherwise the matching segment is looked up (`durp` stays 0 when the
loop does not break) and the constant-tempo or constant-acceleration
formula is applied.  When the lookup falls off the end
(`timein` beyond the sentinel), C divides `0/temp[npts+1] = 0/0 = NaN`;
the `ℝ` model yields the junk value 0. -/
noncomputable def time_beat (s : TempoState) (timein0 : ℝ) : ℝ :=
  let timein := if timein0 < 0 then 0 else timein0
  if s.tset = false then timein
  else
    let m := if 0 < timein then tbFind s timein 0 else 0
    let durp := if 0 < timein ∧ m ≤ s.npts then timein - s.xtime m else 0
    if s.accel m = 0 then durp / s.temp m + s.rxtime m
    else
      (Real.sqrt (s.temp m ^ 2 + 2 * s.accel m * durp) - s.temp m) / s.accel m +
        s.rxtime m

open Classical in
/-- The segment-search loop of `beat_time` (tempo.c): first `m` with
`beatin > rxtime[m] && beatin <= rxtime[m+1]`, else `npts+1`. -/
noncomputable def btFind (s : TempoState) (beatin : ℝ) (m : ℕ) : ℕ :=
  if s.npts + 1 ≤ m then m
  else if s.rxtime m < beatin ∧ beatin ≤ s.rxtime (m + 1) then m
  else btFind s beatin (m + 1)
termination_by s.npts + 1 - m
decreasing_by omega

open Classical in
/-- `beat_time(beatin)` (tempo.c): the inverse lookup, with no clamping
of its argument and the `beatin != 0` gate in place of
`timein > 0`. -/
noncomputable def beat_time (s : TempoState) (beatin : ℝ) : ℝ :=
  if s.tset = false then beatin
  else
    let m := if beatin ≠ 0 then btFind s beatin 0 else 0
    if s.accel m = 0 then (beatin - s.rxtime m) * s.temp m + s.xtime m
    else
      (((beatin - s.rxtime m) * s.accel m + s.temp m) ^ 2 - s.temp m ^ 2) /
        (2 * s.accel m) + s.xtime m

/-! ## Theorems for claim C4 -/

/-- A zero tempo value at an examined breakpoint slot (slot `k` is
examined when `2k < TLEN` and, unless `k = 0`, `2k < n_args`) makes the
fill loop return through `die`, whatever was already stored.  (The die
fires at the first zero slot; a zero at any examined slot guarantees
one exists.) -/
theorem tempoFill_dies (p : List ℝ) (basis : ℝ) :
    ∀ n m npts xt tp, TLEN - m = n → m % 2 = 0 →
    (∃ k, m ≤ 2 * k ∧ 2 * k < TLEN ∧ (k = 0 ∨ 2 * k < p.length) ∧
      p.getD (2 * k + 1) 0 = 0) →
    (tempoFill p basis m npts xt tp).2.2.2 = false := by
  intro n
  induction n using Nat.strong_induction_on with
  | _ n ih =>
    intro m npts xt tp hn hpar hex
    obtain ⟨k, hk1, hk2, hk3, hk4⟩ := hex
    rw [tempoFill]
    rw [if_neg (by omega), if_neg (by rcases hk3 with h | h <;> omega)]
    by_cases hz : Function.update tp npts (p.getD (m + 1) 0 / basis) npts = 0
    · rw [if_pos hz]
    · rw [if_neg hz]
      have hne : 2 * k ≠ m := by
        intro he
        apply hz
        rw [Function.update_same, ← he, hk4, zero_div]
      exact ih (TLEN - (m + 2)) (by omega) (m + 2) (npts + 1) _ _ rfl (by omega)
        ⟨k, by omega, hk2, hk3, hk4⟩

/-- Claim C4, counterexample.  With no tempo map set, `time_beat`
clamps a negative input to zero before the `tset` test, so
`time_beat(-2) = 0 ≠ -2`, refuting "time_beat(s) returns s … for
every input value, including negative inputs". -/
theorem time_beat_neg_identity_cex :
    time_beat initTempoState (-2) = 0 ∧ ((0 : ℝ) ≠ -2) := by
  constructor
  · unfold time_beat initTempoState
    norm_num
  · norm_num

/-- Claim C4, amended.  When no tempo map has been set, `time_beat(s)`
returns `s` for `s ≥ 0` but returns 0 for negative `s` (the input is
clamped to 0 before the no-map test), while `beat_time(b)` returns `b`
for every input including negative ones; and every `tempo(…)` call in
which a supplied tempo value at an examined slot (the first `TLEN/2 =
10` pairs; values beyond `TLEN` are never read) equals 0 fails via
`die` without establishing a map (`tset` remains unset). -/
theorem tempo_identity_spec (s : TempoState) (t b : ℝ) (p : List ℝ)
    (hset : s.tset = false) :
    (0 ≤ t → time_beat s t = t) ∧
    (t < 0 → time_beat s t = 0) ∧
    beat_time s b = b ∧
    ((∃ k, 2 * k < TLEN ∧ (k = 0 ∨ 2 * k < p.length) ∧ p.getD (2 * k + 1) 0 = 0) →
      p ≠ [] → (tempo p s).2 = false ∧ (tempo p s).1.tset = false) := by
  refine ⟨fun h0 => ?_, fun hneg => ?_, ?_, fun hex hp => ?_⟩
  · unfold time_beat
    rw [if_neg (not_lt.mpr h0), if_pos hset]
  · unfold time_beat
    rw [if_pos hneg, if_pos hset]
  · unfold beat_time
    rw [if_pos hset]
  · have hdies := tempoFill_dies p s.basis TLEN 0 1 (zeroLow s.xtime) (zeroLow s.temp)
      rfl rfl (by obtain ⟨k, h1, h2, h3⟩ := hex; exact ⟨k, by omega, h1, h2, h3⟩)
    have hlen : ¬ p.length = 0 := by
      intro h
      exact hp (List.length_eq_zero.mp h)
    unfold tempo
    rw [if_neg hlen]
    rcases hres : tempoFill p s.basis 0 1 (zeroLow s.xtime) (zeroLow s.temp) with
      ⟨xt, tp, np, flag⟩
    rw [hres] at hdies
    simp only at hdies
    subst hdies
    exact ⟨rfl, hset⟩

/-- Claim C4, witness: `time_beat(3.14) = 3.14` with no map;
`beat_time(-2) = -2`; and `tempo(5, 0)` (tempo value 0 in the first
pair) fails without setting `tset`. -/
theorem tempo_identity_spec_witness :
    time_beat initTempoState 3.14 = 3.14 ∧
    beat_time initTempoState (-2) = -2 ∧
    (tempo [5, 0] initTempoState).2 = false ∧
    (tempo [5, 0] initTempoState).1.tset = false := by
  have h := tempo_identity_spec initTempoState 3.14 (-2) [5, 0] rfl
  have h4 := h.2.2.2 ⟨0, by norm_num [TLEN], Or.inl rfl, by norm_num⟩ (by simp)
  exact ⟨h.1 (by norm_num), h.2.2.1, h4.1, h4.2⟩

/-! ## Theorems for claim C10 -/

/-- What a failed fill leaves behind: slots `npts … npts'` hold the
pairs read by the aborted loop (the last one with a zero tempo), all
other slots are untouched. -/
theorem tempoFill_fail_spec (p : List ℝ) (basis : ℝ) :
    ∀ n m npts xt tp, TLEN - m = n → m = 2 * (npts - 1) → 1 ≤ npts →
    (tempoFill p basis m npts xt tp).2.2.2 = false →
    npts ≤ (tempoFill p basis m npts xt tp).2.2.1 ∧
    (∀ i, npts ≤ i → i ≤ (tempoFill p basis m npts xt tp).2.2.1 →
      (tempoFill p basis m npts xt tp).1 i = p.getD (2 * (i - 1)) 0 ∧
      (tempoFill p basis m npts xt tp).2.1 i = p.getD (2 * (i - 1) + 1) 0 / basis) ∧
    (∀ i, ¬ (npts ≤ i ∧ i ≤ (tempoFill p basis m npts xt tp).2.2.1) →
      (tempoFill p basis m npts xt tp).1 i = xt i ∧
      (tempoFill p basis m npts xt tp).2.1 i = tp i) ∧
    (tempoFill p basis m npts xt tp).2.1 ((tempoFill p basis m npts xt tp).2.2.1) = 0 := by
  intro n
  induction n using Nat.strong_induction_on with
  | _ n ih =>
    intro m npts xt tp hn hm hnp hfail
    rw [tempoFill] at hfail ⊢
    by_cases h1 : TLEN ≤ m
    · rw [if_pos h1] at hfail
      exact absurd hfail (by simp)
    · rw [if_neg h1] at hfail ⊢
      by_cases h2 : m ≠ 0 ∧ p.length ≤ m
      · rw [if_pos h2] at hfail
        exact absurd hfail (by simp)
      · rw [if_neg h2] at hfail ⊢
        by_cases hz : Function.update tp npts (p.getD (m + 1) 0 / basis) npts = 0
        · rw [if_pos hz] at hfail ⊢
          dsimp only
          refine ⟨le_refl npts, ?_, ?_, ?_⟩
          · intro i hi1 hi2
            have hie : i = npts := le_antisymm (by simpa using hi2) hi1
            subst hie
            constructor
            · rw [Function.update_same, hm]
            · rw [Function.update_same, hm]
          · intro i hi
            have hne : i ≠ npts := by omega
            exact ⟨Function.update_noteq hne _ _, Function.update_noteq hne _ _⟩
          · rw [Function.update_same] at hz ⊢
            exact hz
        · rw [if_neg hz] at hfail ⊢
          have hrec := ih (TLEN - (m + 2)) (by omega) (m + 2) (npts + 1)
            (Function.update xt npts (p.getD m 0))
            (Function.update tp npts (p.getD (m + 1) 0 / basis))
            rfl (by omega) (by omega) hfail
          obtain ⟨hA, hB, hC, hD⟩ := hrec
          refine ⟨by omega, ?_, ?_, hD⟩
          · intro i hi1 hi2
            rcases eq_or_lt_of_le hi1 with hie | hlt
            · have hu := hC i (by omega)
              rw [hu.1, hu.2, ← hie, Function.update_same, Function.update_same]
              exact ⟨by rw [hm], by rw [hm]⟩
            · exact hB i (by omega) hi2
          · intro i hi
            have hu := hC i (by omega)
            have hne : i ≠ npts := by omega
            rw [hu.1, hu.2, Function.update_noteq hne _ _, Function.update_noteq hne _ _]
            exact ⟨rfl, rfl⟩

/-- Claim C10, amended.  If a `tempo(…)` call fails because a supplied
tempo value is zero, then afterwards the map-set flag `tset` still
reads whatever it was before (in particular still set if an earlier
call succeeded), the `rxtime` and `accel` arrays have been reset to
zero (below `TLEN`), and `xtime`/`temp` have been reset to zero except
that slots `1 … npts` hold the partial breakpoints of the aborted call
(ending with the zero tempo, `temp[npts] = 0`); consequently subsequent
`time_beat`/`beat_time` calls take the tempo-mapped branch (selected by
the still-set `tset`) over this residual data rather than the previous
map — the failed call is not atomic on the tempo-map state. -/
theorem tempo_fail_state_spec (s : TempoState) (p : List ℝ)
    (hp : ¬ p.length = 0) (hfail : (tempo p s).2 = false) :
    (tempo p s).1.tset = s.tset ∧
    1 ≤ (tempo p s).1.npts ∧
    (∀ i, i < TLEN → (tempo p s).1.rxtime i = 0 ∧ (tempo p s).1.accel i = 0) ∧
    (∀ i, 1 ≤ i → i ≤ (tempo p s).1.npts →
      (tempo p s).1.xtime i = p.getD (2 * (i - 1)) 0 ∧
      (tempo p s).1.temp i = p.getD (2 * (i - 1) + 1) 0 / s.basis) ∧
    (∀ i, i < TLEN → ¬ (1 ≤ i ∧ i ≤ (tempo p s).1.npts) →
      (tempo p s).1.xtime i = 0 ∧ (tempo p s).1.temp i = 0) ∧
    (tempo p s).1.temp ((tempo p s).1.npts) = 0 := by
  rcases hres : tempoFill p s.basis 0 1 (zeroLow s.xtime) (zeroLow s.temp) with
    ⟨xt, tp, np, flag⟩
  cases flag
  · have htempo : tempo p s =
        ({ s with xtime := xt, temp := tp, rxtime := zeroLow s.rxtime,
                  accel := zeroLow s.accel, npts := np }, false) := by
      unfold tempo
      rw [if_neg hp, hres]
    have hspec := tempoFill_fail_spec p s.basis TLEN 0 1
      (zeroLow s.xtime) (zeroLow s.temp) rfl rfl (le_refl 1) (by rw [hres])
    rw [hres] at hspec
    dsimp only at hspec
    obtain ⟨hA, hB, hC, hD⟩ := hspec
    rw [htempo]
    refine ⟨rfl, hA, ?_, ?_, ?_, hD⟩
    · intro i hi
      exact ⟨by simp [zeroLow, hi], by simp [zeroLow, hi]⟩
    · intro i hi1 hi2
      exact hB i hi1 (by simpa using hi2)
    · intro i hi hout
      have hu := hC i (by simpa using hout)
      refine ⟨?_, ?_⟩
      · show xt i = 0
        rw [hu.1]
        simp [zeroLow, hi]
      · show tp i = 0
        rw [hu.2]
        simp [zeroLow, hi]
  · have htrue : (tempo p s).2 = true := by
      unfold tempo
      rw [if_neg hp, hres]
    rw [hfail] at htrue
    exact Bool.noConfusion htrue

/-- Evaluation helper: `tempo(5, 0)` dies at its first pair (tempo
`0/BASIS = 0`), having already written `xtime[1] = 5`,
`temp[1] = 0`. -/
theorem tempoFill_five_zero (basis : ℝ) (xt tp : ℕ → ℝ) :
    tempoFill [5, 0] basis 0 1 xt tp =
      (Function.update xt 1 5, Function.update tp 1 0, 1, false) := by
  rw [tempoFill]
  rw [if_neg (by norm_num [TLEN]), if_neg (by simp)]
  rw [if_pos (by rw [Function.update_same]; norm_num)]
  norm_num

/-- Evaluation helper: `tempo(0, 60)` at `BASIS = 60` reads its single
pair successfully (`temp[1] = 1`) and stops at `m = 2 ≥ n_args`. -/
theorem tempoFill_zero_sixty (xt tp : ℕ → ℝ) :
    tempoFill [0, 60] 60 0 1 xt tp =
      (Function.update xt 1 0, Function.update tp 1 1, 2, true) := by
  rw [tempoFill]
  rw [if_neg (by norm_num [TLEN]), if_neg (by simp)]
  rw [if_neg (by rw [Function.update_same]; norm_num)]
  rw [tempoFill]
  rw [if_neg (by norm_num [TLEN]), if_pos (by simp)]
  norm_num

/-- Claim C10, counterexample.  After a successful `tempo(0, 60)`
(`tset` set) a failing `tempo(5, 0)` leaves `tset` set — but
`xtime[1] = 5`: the breakpoint arrays are *not* all zero (the aborted
call's partial pair survives), refuting "all breakpoint arrays … have
already been reset to zero by the failed call". -/
theorem tempo_fail_zero_arrays_cex :
    (tempo [0, 60] initTempoState).1.tset = true ∧
    (tempo [5, 0] (tempo [0, 60] initTempoState).1).1.tset = true ∧
    (tempo [5, 0] (tempo [0, 60] initTempoState).1).1.xtime 1 = 5 ∧
    ((5 : ℝ) ≠ 0) := by
  have hb : initTempoState.basis = 60 := rfl
  have h1 : (tempo [0, 60] initTempoState).1.tset = true := by
    unfold tempo
    rw [if_neg (by norm_num), hb, tempoFill_zero_sixty]
  set s1 := (tempo [0, 60] initTempoState).1 with hs1
  have h2res := tempoFill_five_zero s1.basis (zeroLow s1.xtime) (zeroLow s1.temp)
  have e2 : tempo [5, 0] s1 =
      ({ s1 with
          xtime := Function.update (zeroLow s1.xtime) 1 5,
          temp := Function.update (zeroLow s1.temp) 1 0,
          rxtime := zeroLow s1.rxtime, accel := zeroLow s1.accel, npts := 1 }, false) := by
    unfold tempo
    rw [if_neg (by norm_num), h2res]
  refine ⟨h1, ?_, ?_, by norm_num⟩
  · rw [e2]
    exact h1
  · rw [e2]
    exact Function.update_same 1 (5 : ℝ) (zeroLow s1.xtime)

/-- Claim C10, witness for the amended theorem: instantiated at the
failing call `tempo(5, 0)` after `tempo(0, 60)`: the failed call keeps
`tset` set while `rxtime`/`accel` are zeroed and `temp[npts] = 0`. -/
theorem tempo_fail_state_spec_witness :
    (tempo [5, 0] (tempo [0, 60] initTempoState).1).1.tset =
      (tempo [0, 60] initTempoState).1.tset ∧
    1 ≤ (tempo [5, 0] (tempo [0, 60] initTempoState).1).1.npts ∧
    (tempo [5, 0] (tempo [0, 60] initTempoState).1).1.rxtime 2 = 0 ∧
    (tempo [5, 0] (tempo [0, 60] initTempoState).1).1.temp
      ((tempo [5, 0] (tempo [0, 60] initTempoState).1).1.npts) = 0 := by
  set s1 := (tempo [0, 60] initTempoState).1 with hs1
  have h2res := tempoFill_five_zero s1.basis (zeroLow s1.xtime) (zeroLow s1.temp)
  have e2 : tempo [5, 0] s1 =
      ({ s1 with
          xtime := Function.update (zeroLow s1.xtime) 1 5,
          temp := Function.update (zeroLow s1.temp) 1 0,
          rxtime := zeroLow s1.rxtime, accel := zeroLow s1.accel, npts := 1 }, false) := by
    unfold tempo
    rw [if_neg (by norm_num), h2res]
  have hfail : (tempo [5, 0] s1).2 = false := by rw [e2]
  have h := tempo_fail_state_spec s1 [5, 0] (by norm_num) hfail
  exact ⟨h.1, h.2.1, (h.2.2.1 2 (by norm_num [TLEN])).1, h.2.2.2.2.2⟩

/-! ## Towards claim C5: well-formed tempo maps and the time/beat
roundtrip.

`WellFormedMap` collects the invariants that every state built by a
successful legal `tempo(…)` call satisfies (proved below in
`tempo_legal_spec`); the two roundtrip theorems are proved from the
invariants alone. -/

/-- Invariants of a tempo-map state as built by a successful `tempo`
call: the map is set, breakpoint times are nondecreasing, tempos (over
basis) are positive, `accel` agrees with the loop formula on live
segments and `rxtime` with the loop recurrence, and the index-0 edge
values are as the fixups leave them (`temp[0] = temp[1]`,
`xtime[0] = rxtime[0] = 0`). -/
structure WellFormedMap (s : TempoState) : Prop where
  tset : s.tset = true
  npts_pos : 1 ≤ s.npts
  xtime0 : s.xtime 0 = 0
  rxtime0 : s.rxtime 0 = 0
  temp0 : s.temp 0 = s.temp 1
  temp_pos : ∀ m, m ≤ s.npts → 0 < s.temp m
  xtime_mono : ∀ m, m < s.npts → s.xtime m ≤ s.xtime (m + 1)
  accel_def : ∀ m, m < s.npts → s.accel m = accelOf s.xtime s.temp m
  rx_rec : ∀ m, m < s.npts →
    s.rxtime (m + 1) =
      if s.xtime (m + 1) - s.xtime m = 0 then s.rxtime m
      else if s.accel m = 0 then
        (s.xtime (m + 1) - s.xtime m) / s.temp m + s.rxtime m
      else
        (Real.sqrt (s.temp m ^ 2 + 2 * s.accel m * (s.xtime (m + 1) - s.xtime m)) -
            s.temp m) / s.accel m + s.rxtime m

namespace WellFormedMap

variable {s : TempoState}

/-- The first segment always has zero acceleration (`temp[0] = temp[1]`). -/
theorem accel0 (W : WellFormedMap s) : s.accel 0 = 0 := by
  rw [W.accel_def 0 W.npts_pos, accelOf]
  split
  · rfl
  · rw [W.temp0]
    ring_nf

/-- Breakpoint times increase along indices up to `npts`. -/
theorem xtime_chain (W : WellFormedMap s) :
    ∀ i j, i ≤ j → j ≤ s.npts → s.xtime i ≤ s.xtime j := by
  intro i j hij hj
  induction j with
  | zero => simp_all
  | succ k ihk =>
      rcases Nat.lt_or_ge i (k + 1) with h | h
      · exact le_trans (ihk (by omega) (by omega)) (W.xtime_mono k (by omega))
      · have : i = k + 1 := by omega
        rw [this]

/-- On a live segment of nonzero duration the square root appearing in
the loop formulas is the next breakpoint tempo. -/
theorem sqrt_eq_temp_succ (W : WellFormedMap s) (m : ℕ) (hm : m < s.npts)
    (hdur : s.xtime (m + 1) - s.xtime m ≠ 0) :
    Real.sqrt (s.temp m ^ 2 +
        2 * s.accel m * (s.xtime (m + 1) - s.xtime m)) = s.temp (m + 1) := by
  have ha : s.accel m = (s.temp (m + 1) ^ 2 - s.temp m ^ 2) /
      (2 * (s.xtime (m + 1) - s.xtime m)) := by
    rw [W.accel_def m hm, accelOf, if_neg hdur]
  have harg : s.temp m ^ 2 + 2 * s.accel m * (s.xtime (m + 1) - s.xtime m) =
      s.temp (m + 1) ^ 2 := by
    rw [ha]
    field_simp
    ring
  rw [harg]
  exact Real.sqrt_sq (le_of_lt (W.temp_pos (m + 1) hm))

/-- The beat advance over one segment: zero for an empty segment,
strictly positive otherwise. -/
theorem rx_step (W : WellFormedMap s) (m : ℕ) (hm : m < s.npts) :
    (s.xtime (m + 1) - s.xtime m = 0 → s.rxtime (m + 1) = s.rxtime m) ∧
    (s.xtime (m + 1) - s.xtime m ≠ 0 → s.rxtime m < s.rxtime (m + 1)) := by
  have hrec := W.rx_rec m hm
  constructor
  · intro hz
    rw [hrec, if_pos hz]
  · intro hnz
    have hdurpos : 0 < s.xtime (m + 1) - s.xtime m := by
      have := W.xtime_mono m hm
      rcases lt_or_eq_of_le this with h | h
      · linarith
      · exact absurd (by linarith) hnz
    rw [hrec, if_neg hnz]
    by_cases ha : s.accel m = 0
    · rw [if_pos ha]
      have hT := W.temp_pos m (le_of_lt hm)
      have : 0 < (s.xtime (m + 1) - s.xtime m) / s.temp m := div_pos hdurpos hT
      linarith
    · rw [if_neg ha]
      rw [W.sqrt_eq_temp_succ m hm hnz]
      have hT := W.temp_pos m (le_of_lt hm)
      have hT1 := W.temp_pos (m + 1) hm
      have haval : s.accel m = (s.temp (m + 1) ^ 2 - s.temp m ^ 2) /
          (2 * (s.xtime (m + 1) - s.xtime m)) := by
        rw [W.accel_def m hm, accelOf, if_neg hnz]
      have hstep : (s.temp (m + 1) - s.temp m) / s.accel m =
          2 * (s.xtime (m + 1) - s.xtime m) / (s.temp (m + 1) + s.temp m) := by
        rw [haval]
        have hsum : s.temp (m + 1) + s.temp m ≠ 0 := by positivity
        have hdiff : s.temp (m + 1) ^ 2 - s.temp m ^ 2 ≠ 0 := by
          intro hzero
          apply ha
          rw [haval, hzero, zero_div]
        field_simp
        ring
      rw [hstep]
      have : 0 < 2 * (s.xtime (m + 1) - s.xtime m) / (s.temp (m + 1) + s.temp m) := by
        positivity
      linarith

/-- Beat positions increase along indices up to `npts`. -/
theorem rx_chain (W : WellFormedMap s) :
    ∀ i j, i ≤ j → j ≤ s.npts → s.rxtime i ≤ s.rxtime j := by
  intro i j hij hj
  induction j with
  | zero => simp_all
  | succ k ihk =>
      rcases Nat.lt_or_ge i (k + 1) with h | h
      · refine le_trans (ihk (by omega) (by omega)) ?_
        have hstep := W.rx_step k (by omega)
        by_cases hz : s.xtime (k + 1) - s.xtime k = 0
        · rw [hstep.1 hz]
        · exact le_of_lt (hstep.2 hz)
      · have : i = k + 1 := by omega
        rw [this]

end WellFormedMap

/-- The `time_beat` search loop stops at the first matching segment. -/
theorem tbFind_from (s : TempoState) (t : ℝ) (m : ℕ) (hm : m ≤ s.npts)
    (hP : s.xtime m < t ∧ t ≤ s.xtime (m + 1)) :
    ∀ n k, m - k = n → k ≤ m →
    (∀ j, k ≤ j → j < m → ¬ (s.xtime j < t ∧ t ≤ s.xtime (j + 1))) →
    tbFind s t k = m := by
  intro n
  induction n using Nat.strong_induction_on with
  | _ n ih =>
    intro k hn hk hprev
    rw [tbFind, if_neg (by omega)]
    by_cases hkm : k = m
    · subst hkm
      rw [if_pos hP]
    · rw [if_neg (hprev k (le_refl k) (by omega))]
      exact ih (m - (k + 1)) (by omega) (k + 1) rfl (by omega)
        (fun j h1 h2 => hprev j (by omega) h2)

/-- The `beat_time` search loop stops at the first matching segment. -/
theorem btFind_from (s : TempoState) (b : ℝ) (m : ℕ) (hm : m ≤ s.npts)
    (hP : s.rxtime m < b ∧ b ≤ s.rxtime (m + 1)) :
    ∀ n k, m - k = n → k ≤ m →
    (∀ j, k ≤ j → j < m → ¬ (s.rxtime j < b ∧ b ≤ s.rxtime (j + 1))) →
    btFind s b k = m := by
  intro n
  induction n using Nat.strong_induction_on with
  | _ n ih =>
    intro k hn hk hprev
    rw [btFind, if_neg (by omega)]
    by_cases hkm : k = m
    · subst hkm
      rw [if_pos hP]
    · rw [if_neg (hprev k (le_refl k) (by omega))]
      exact ih (m - (k + 1)) (by omega) (k + 1) rfl (by omega)
        (fun j h1 h2 => hprev j (by omega) h2)

open Classical in
/-- A value strictly above a chain's start and at most its end crosses
it in a first segment. -/
theorem first_cross (f : ℕ → ℝ) (npts : ℕ) (hnp : 1 ≤ npts) (v : ℝ)
    (h0 : f 0 < v) (htop : v ≤ f npts) :
    ∃ m, m < npts ∧ f m < v ∧ v ≤ f (m + 1) ∧
      ∀ j, j < m → ¬ (f j < v ∧ v ≤ f (j + 1)) := by
  have hexists : ∃ m, v ≤ f (m + 1) := by
    refine ⟨npts - 1, ?_⟩
    rwa [Nat.sub_add_cancel hnp]
  refine ⟨Nat.find hexists, ?_, ?_, Nat.find_spec hexists, ?_⟩
  · have := Nat.find_min' hexists
      (show v ≤ f ((npts - 1) + 1) by rwa [Nat.sub_add_cancel hnp])
    omega
  · rcases Nat.eq_zero_or_pos (Nat.find hexists) with hzero | hpos
    · rwa [hzero]
    · have hmin := Nat.find_min hexists (show Nat.find hexists - 1 < Nat.find hexists by omega)
      push_neg at hmin
      have : Nat.find hexists - 1 + 1 = Nat.find hexists := by omega
      rwa [this] at hmin
  · intro j hj hcontra
    exact Nat.find_min hexists hj hcontra.2

/-- Evaluation of `time_beat` on a set map at a positive input whose
segment search returns `m ≤ npts`. -/
theorem time_beat_pos_eval (s : TempoState) (hset : s.tset = true) (t0 : ℝ)
    (hpos : 0 < t0) (m : ℕ) (hfind : tbFind s t0 0 = m) (hm : m ≤ s.npts) :
    time_beat s t0 =
      if s.accel m = 0 then (t0 - s.xtime m) / s.temp m + s.rxtime m
      else
        (Real.sqrt (s.temp m ^ 2 + 2 * s.accel m * (t0 - s.xtime m)) - s.temp m) /
          s.accel m + s.rxtime m := by
  unfold time_beat
  rw [if_neg (by linarith : ¬ t0 < 0), if_neg (by rw [hset]; simp), if_pos hpos, hfind]
  dsimp only
  rw [if_pos (show 0 < t0 ∧ m ≤ s.npts from ⟨hpos, hm⟩)]

/-- Evaluation of `beat_time` on a set map at a nonzero input. -/
theorem beat_time_ne_eval (s : TempoState) (hset : s.tset = true) (b : ℝ)
    (hb : b ≠ 0) (m : ℕ) (hfind : btFind s b 0 = m) :
    beat_time s b =
      if s.accel m = 0 then (b - s.rxtime m) * s.temp m + s.xtime m
      else
        (((b - s.rxtime m) * s.accel m + s.temp m) ^ 2 - s.temp m ^ 2) /
          (2 * s.accel m) + s.xtime m := by
  unfold beat_time
  rw [if_neg (by rw [hset]; simp), if_pos hb, hfind]

/-- On a well-formed map, `time_beat 0 = 0`. -/
theorem time_beat_zero (s : TempoState) (W : WellFormedMap s) : time_beat s 0 = 0 := by
  unfold time_beat
  rw [if_neg (lt_irrefl (0 : ℝ)), if_neg (by rw [W.tset]; simp),
    if_neg (lt_irrefl (0 : ℝ))]
  dsimp only
  rw [if_neg (by simp : ¬ ((0 : ℝ) < 0 ∧ (0 : ℕ) ≤ s.npts)), if_pos W.accel0,
    W.rxtime0, zero_div, add_zero]

/-- On a well-formed map, `beat_time 0 = 0`. -/
theorem beat_time_zero (s : TempoState) (W : WellFormedMap s) : beat_time s 0 = 0 := by
  unfold beat_time
  rw [if_neg (by rw [W.tset]; simp), if_neg (by simp : ¬ ((0 : ℝ) ≠ 0))]
  dsimp only
  rw [if_pos W.accel0, W.rxtime0, W.xtime0, sub_zero, zero_mul, zero_add]

/-- Claim C5, forward direction over a well-formed map: for beats `b`
within the map's range, `time_beat (beat_time b) = b` exactly. -/
theorem WellFormedMap.roundtrip_beat {s : TempoState} (W : WellFormedMap s) (b : ℝ)
    (hb0 : 0 ≤ b) (hbtop : b ≤ s.rxtime s.npts) :
    time_beat s (beat_time s b) = b := by
  rcases eq_or_lt_of_le hb0 with hb00 | hbpos
  · rw [← hb00, beat_time_zero s W, time_beat_zero s W]
  · obtain ⟨m, hmlt, hlow, hhigh, hmin⟩ := first_cross s.rxtime s.npts W.npts_pos b
      (by rw [W.rxtime0]; exact hbpos) hbtop
    have hfind : btFind s b 0 = m :=
      btFind_from s b m (le_of_lt hmlt) ⟨hlow, hhigh⟩ m 0 rfl (Nat.zero_le m)
        (fun j _ h2 => hmin j h2)
    rw [beat_time_ne_eval s W.tset b (ne_of_gt hbpos) m hfind]
    have hTpos : 0 < s.temp m := W.temp_pos m (le_of_lt hmlt)
    have hT1pos : 0 < s.temp (m + 1) := W.temp_pos (m + 1) hmlt
    have hdur0 : 0 ≤ s.xtime (m + 1) - s.xtime m := by
      have := W.xtime_mono m hmlt
      linarith
    have hdurpos : 0 < s.xtime (m + 1) - s.xtime m := by
      rcases lt_or_eq_of_le hdur0 with h | h
      · exact h
      · have := (W.rx_step m hmlt).1 h.symm
        rw [this] at hhigh
        linarith
    have hβpos : 0 < b - s.rxtime m := by linarith
    have hβle : b - s.rxtime m ≤ s.rxtime (m + 1) - s.rxtime m := by linarith
    have hx0 : 0 ≤ s.xtime m := by
      have := W.xtime_chain 0 m (Nat.zero_le m) (le_of_lt hmlt)
      rw [W.xtime0] at this
      exact this
    by_cases ha : s.accel m = 0
    · rw [if_pos ha]
      have hΔ : s.rxtime (m + 1) =
          (s.xtime (m + 1) - s.xtime m) / s.temp m + s.rxtime m := by
        have hrec := W.rx_rec m hmlt
        rw [if_neg (ne_of_gt hdurpos), if_pos ha] at hrec
        exact hrec
      have hβle' : b - s.rxtime m ≤ (s.xtime (m + 1) - s.xtime m) / s.temp m := by
        rw [hΔ] at hβle
        linarith
      have hβT : (b - s.rxtime m) * s.temp m ≤ s.xtime (m + 1) - s.xtime m := by
        have h1 : (b - s.rxtime m) * s.temp m ≤
            ((s.xtime (m + 1) - s.xtime m) / s.temp m) * s.temp m :=
          mul_le_mul_of_nonneg_right hβle' (le_of_lt hTpos)
        rwa [div_mul_cancel₀ _ (ne_of_gt hTpos)] at h1
      have htlow : s.xtime m < (b - s.rxtime m) * s.temp m + s.xtime m := by nlinarith
      have hthigh : (b - s.rxtime m) * s.temp m + s.xtime m ≤ s.xtime (m + 1) := by
        linarith
      have htpos : 0 < (b - s.rxtime m) * s.temp m + s.xtime m := by nlinarith
      have hfind2 : tbFind s ((b - s.rxtime m) * s.temp m + s.xtime m) 0 = m := by
        refine tbFind_from s _ m (le_of_lt hmlt) ⟨htlow, hthigh⟩ m 0 rfl (Nat.zero_le m) ?_
        intro j _ hj hcontra
        have hch := W.xtime_chain (j + 1) m (by omega) (le_of_lt hmlt)
        linarith [hcontra.2]
      rw [time_beat_pos_eval s W.tset _ htpos m hfind2 (le_of_lt hmlt), if_pos ha]
      have hsimp : (b - s.rxtime m) * s.temp m + s.xtime m - s.xtime m =
          (b - s.rxtime m) * s.temp m := by ring
      rw [hsimp, mul_div_cancel_right₀ _ (ne_of_gt hTpos)]
      ring
    · rw [if_neg ha]
      have hsq : s.temp m ^ 2 + 2 * s.accel m * (s.xtime (m + 1) - s.xtime m) =
          s.temp (m + 1) ^ 2 := by
        have hval : s.accel m = (s.temp (m + 1) ^ 2 - s.temp m ^ 2) /
            (2 * (s.xtime (m + 1) - s.xtime m)) := by
          rw [W.accel_def m hmlt, accelOf, if_neg (ne_of_gt hdurpos)]
        rw [hval]
        field_simp
        ring
      have hΔrx : s.rxtime (m + 1) =
          (s.temp (m + 1) - s.temp m) / s.accel m + s.rxtime m := by
        have hrec := W.rx_rec m hmlt
        rw [if_neg (ne_of_gt hdurpos), if_neg ha,
          W.sqrt_eq_temp_succ m hmlt (ne_of_gt hdurpos)] at hrec
        exact hrec
      have hβlediv : b - s.rxtime m ≤ (s.temp (m + 1) - s.temp m) / s.accel m := by
        rw [hΔrx] at hβle
        linarith
      have hβa : 0 < (b - s.rxtime m) * s.accel m + s.temp m := by
        rcases lt_or_gt_of_ne ha with haneg | hapos
        · have h1 : ((s.temp (m + 1) - s.temp m) / s.accel m) * s.accel m ≤
              (b - s.rxtime m) * s.accel m :=
            mul_le_mul_of_nonpos_right hβlediv (le_of_lt haneg)
          rw [div_mul_cancel₀ _ ha] at h1
          linarith
        · nlinarith
      have h2ad : 2 * s.accel m * (s.xtime (m + 1) - s.xtime m) =
          s.temp (m + 1) ^ 2 - s.temp m ^ 2 := by linarith [hsq]
      have h2ne : (2 : ℝ) * s.accel m ≠ 0 := by
        intro hcon
        rcases mul_eq_zero.mp hcon with h | h
        · norm_num at h
        · exact ha h
      set g := (((b - s.rxtime m) * s.accel m + s.temp m) ^ 2 - s.temp m ^ 2) /
        (2 * s.accel m) with hgdef
      have h2ag : 2 * s.accel m * g =
          ((b - s.rxtime m) * s.accel m + s.temp m) ^ 2 - s.temp m ^ 2 := by
        rw [hgdef]
        exact mul_div_cancel₀ _ h2ne
      have hgpos : 0 < g := by
        rcases lt_or_gt_of_ne ha with haneg | hapos
        · have h1 : (b - s.rxtime m) * s.accel m < 0 :=
            mul_neg_of_pos_of_neg hβpos haneg
          have h2 : ((b - s.rxtime m) * s.accel m + s.temp m) ^ 2 < s.temp m ^ 2 :=
            sq_lt_sq' (by linarith) (by linarith)
          rw [hgdef]
          exact div_pos_of_neg_of_neg (by linarith) (by linarith)
        · have h1 : 0 < (b - s.rxtime m) * s.accel m := mul_pos hβpos hapos
          have h2 : s.temp m ^ 2 < ((b - s.rxtime m) * s.accel m + s.temp m) ^ 2 :=
            sq_lt_sq' (by linarith) (by linarith)
          rw [hgdef]
          exact div_pos (by linarith) (by linarith)
      have hgle : g ≤ s.xtime (m + 1) - s.xtime m := by
        rcases lt_or_gt_of_ne ha with haneg | hapos
        · have hβa' : s.temp (m + 1) ≤ (b - s.rxtime m) * s.accel m + s.temp m := by
            have h1 := mul_le_mul_of_nonpos_right hβlediv (le_of_lt haneg)
            rw [div_mul_cancel₀ _ ha] at h1
            linarith
          have hsqcmp : s.temp (m + 1) ^ 2 ≤
              ((b - s.rxtime m) * s.accel m + s.temp m) ^ 2 :=
            sq_le_sq' (by linarith) hβa'
          have hmul : 2 * s.accel m * (s.xtime (m + 1) - s.xtime m) ≤
              2 * s.accel m * g := by
            rw [h2ag, h2ad]
            linarith
          have hc : 2 * s.accel m < 0 := by linarith
          exact (mul_le_mul_left_of_neg hc).mp hmul
        · have hβa' : (b - s.rxtime m) * s.accel m + s.temp m ≤ s.temp (m + 1) := by
            have h1 := mul_le_mul_of_nonneg_right hβlediv (le_of_lt hapos)
            rw [div_mul_cancel₀ _ ha] at h1
            linarith
          have hsqcmp : ((b - s.rxtime m) * s.accel m + s.temp m) ^ 2 ≤
              s.temp (m + 1) ^ 2 :=
            sq_le_sq' (by linarith) hβa'
          have hmul : 2 * s.accel m * g ≤
              2 * s.accel m * (s.xtime (m + 1) - s.xtime m) := by
            rw [h2ag, h2ad]
            linarith
          have hc : 0 < 2 * s.accel m := by linarith
          exact le_of_mul_le_mul_left hmul hc
      have htlow : s.xtime m < g + s.xtime m := by linarith
      have hthigh : g + s.xtime m ≤ s.xtime (m + 1) := by linarith
      have htpos : 0 < g + s.xtime m := by linarith
      have hfind2 : tbFind s (g + s.xtime m) 0 = m := by
        refine tbFind_from s _ m (le_of_lt hmlt) ⟨htlow, hthigh⟩ m 0 rfl (Nat.zero_le m) ?_
        intro j _ hj hcontra
        have hch := W.xtime_chain (j + 1) m (by omega) (le_of_lt hmlt)
        linarith [hcontra.2]
      rw [time_beat_pos_eval s W.tset _ htpos m hfind2 (le_of_lt hmlt), if_neg ha]
      have hsimp : g + s.xtime m - s.xtime m = g := by ring
      rw [hsimp]
      have hsqarg : s.temp m ^ 2 + 2 * s.accel m * g =
          ((b - s.rxtime m) * s.accel m + s.temp m) ^ 2 := by linarith [h2ag]
      rw [hsqarg, Real.sqrt_sq (le_of_lt hβa)]
      have hnum : (b - s.rxtime m) * s.accel m + s.temp m - s.temp m =
          (b - s.rxtime m) * s.accel m := by ring
      rw [hnum, mul_div_cancel_right₀ _ ha]
      ring

/-- Claim C5, reverse direction over a well-formed map: for times `t`
within the map's range, `beat_time (time_beat t) = t` exactly. -/
theorem WellFormedMap.roundtrip_time {s : TempoState} (W : WellFormedMap s) (t : ℝ)
    (ht0 : 0 ≤ t) (httop : t ≤ s.xtime s.npts) :
    beat_time s (time_beat s t) = t := by
  rcases eq_or_lt_of_le ht0 with ht00 | htpos
  · rw [← ht00, time_beat_zero s W, beat_time_zero s W]
  · obtain ⟨m, hmlt, hlow, hhigh, hmin⟩ := first_cross s.xtime s.npts W.npts_pos t
      (by rw [W.xtime0]; exact htpos) httop
    have hfind : tbFind s t 0 = m :=
      tbFind_from s t m (le_of_lt hmlt) ⟨hlow, hhigh⟩ m 0 rfl (Nat.zero_le m)
        (fun j _ h2 => hmin j h2)
    rw [time_beat_pos_eval s W.tset t htpos m hfind (le_of_lt hmlt)]
    have hTpos : 0 < s.temp m := W.temp_pos m (le_of_lt hmlt)
    have hT1pos : 0 < s.temp (m + 1) := W.temp_pos (m + 1) hmlt
    have hΔpos : 0 < t - s.xtime m := by linarith
    have hΔle : t - s.xtime m ≤ s.xtime (m + 1) - s.xtime m := by linarith
    have hdurpos : 0 < s.xtime (m + 1) - s.xtime m := by linarith
    have hrx0 : 0 ≤ s.rxtime m := by
      have := W.rx_chain 0 m (Nat.zero_le m) (le_of_lt hmlt)
      rw [W.rxtime0] at this
      exact this
    by_cases ha : s.accel m = 0
    · rw [if_pos ha]
      have hΔrx : s.rxtime (m + 1) =
          (s.xtime (m + 1) - s.xtime m) / s.temp m + s.rxtime m := by
        have hrec := W.rx_rec m hmlt
        rw [if_neg (ne_of_gt hdurpos), if_pos ha] at hrec
        exact hrec
      have hblow : s.rxtime m < (t - s.xtime m) / s.temp m + s.rxtime m := by
        have := div_pos hΔpos hTpos
        linarith
      have hbhigh : (t - s.xtime m) / s.temp m + s.rxtime m ≤ s.rxtime (m + 1) := by
        rw [hΔrx]
        have := (div_le_div_iff_of_pos_right hTpos).mpr hΔle
        linarith
      have hbne : (t - s.xtime m) / s.temp m + s.rxtime m ≠ 0 := by
        have := div_pos hΔpos hTpos
        intro hcon
        linarith
      have hfind2 : btFind s ((t - s.xtime m) / s.temp m + s.rxtime m) 0 = m := by
        refine btFind_from s _ m (le_of_lt hmlt) ⟨hblow, hbhigh⟩ m 0 rfl (Nat.zero_le m) ?_
        intro j _ hj hcontra
        have hch := W.rx_chain (j + 1) m (by omega) (le_of_lt hmlt)
        linarith [hcontra.2]
      rw [beat_time_ne_eval s W.tset _ hbne m hfind2, if_pos ha]
      have hsimp : (t - s.xtime m) / s.temp m + s.rxtime m - s.rxtime m =
          (t - s.xtime m) / s.temp m := by ring
      rw [hsimp, div_mul_cancel₀ _ (ne_of_gt hTpos)]
      ring
    · rw [if_neg ha]
      have hsq : s.temp m ^ 2 + 2 * s.accel m * (s.xtime (m + 1) - s.xtime m) =
          s.temp (m + 1) ^ 2 := by
        have hval : s.accel m = (s.temp (m + 1) ^ 2 - s.temp m ^ 2) /
            (2 * (s.xtime (m + 1) - s.xtime m)) := by
          rw [W.accel_def m hmlt, accelOf, if_neg (ne_of_gt hdurpos)]
        rw [hval]
        field_simp
        ring
      have hΔrx : s.rxtime (m + 1) =
          (s.temp (m + 1) - s.temp m) / s.accel m + s.rxtime m := by
        have hrec := W.rx_rec m hmlt
        rw [if_neg (ne_of_gt hdurpos), if_neg ha,
          W.sqrt_eq_temp_succ m hmlt (ne_of_gt hdurpos)] at hrec
        exact hrec
      have hargpos : 0 < s.temp m ^ 2 + 2 * s.accel m * (t - s.xtime m) := by
        rcases lt_or_gt_of_ne ha with haneg | hapos
        · have h1 : 2 * s.accel m * (s.xtime (m + 1) - s.xtime m) ≤
              2 * s.accel m * (t - s.xtime m) := by
            have hc : 2 * s.accel m < 0 := by linarith
            exact (mul_le_mul_left_of_neg hc).mpr hΔle
          nlinarith [hsq, sq_nonneg (s.temp (m + 1))]
        · have h1 : 0 < 2 * s.accel m * (t - s.xtime m) := by positivity
          nlinarith [sq_nonneg (s.temp m)]
      set S := Real.sqrt (s.temp m ^ 2 + 2 * s.accel m * (t - s.xtime m)) with hSdef
      have hSsq : S ^ 2 = s.temp m ^ 2 + 2 * s.accel m * (t - s.xtime m) := by
        rw [hSdef]
        exact Real.sq_sqrt (le_of_lt hargpos)
      have hSnonneg : 0 ≤ S := by
        rw [hSdef]
        exact Real.sqrt_nonneg _
      have hblow : s.rxtime m < (S - s.temp m) / s.accel m + s.rxtime m := by
        rcases lt_or_gt_of_ne ha with haneg | hapos
        · have harglt : s.temp m ^ 2 + 2 * s.accel m * (t - s.xtime m) <
              s.temp m ^ 2 := by nlinarith [mul_pos hΔpos (neg_pos.mpr haneg)]
          have hS : S < s.temp m := by
            rw [hSdef]
            exact (Real.sqrt_lt' hTpos).mpr harglt
          have := div_pos_of_neg_of_neg (by linarith : S - s.temp m < 0) haneg
          linarith
        · have harggt : s.temp m ^ 2 <
              s.temp m ^ 2 + 2 * s.accel m * (t - s.xtime m) := by
            nlinarith [mul_pos hΔpos hapos]
          have hS : s.temp m < S := by
            rw [hSdef]
            exact (Real.lt_sqrt (le_of_lt hTpos)).mpr harggt
          have := div_pos (by linarith : 0 < S - s.temp m) hapos
          linarith
      have hbhigh : (S - s.temp m) / s.accel m + s.rxtime m ≤ s.rxtime (m + 1) := by
        rw [hΔrx]
        rcases lt_or_gt_of_ne ha with haneg | hapos
        · have hargge : s.temp (m + 1) ^ 2 ≤
              s.temp m ^ 2 + 2 * s.accel m * (t - s.xtime m) := by
            have hc : 2 * s.accel m < 0 := by linarith
            have h1 := (mul_le_mul_left_of_neg hc).mpr hΔle
            linarith [hsq]
          have hS : s.temp (m + 1) ≤ S := by
            rw [hSdef, show s.temp (m + 1) = Real.sqrt (s.temp (m + 1) ^ 2) from
              (Real.sqrt_sq (le_of_lt hT1pos)).symm]
            exact Real.sqrt_le_sqrt hargge
          have := div_le_div_of_nonpos_of_le (le_of_lt haneg)
            (by linarith : s.temp (m + 1) - s.temp m ≤ S - s.temp m)
          linarith
        · have hargle : s.temp m ^ 2 + 2 * s.accel m * (t - s.xtime m) ≤
              s.temp (m + 1) ^ 2 := by
            have h1 : 2 * s.accel m * (t - s.xtime m) ≤
                2 * s.accel m * (s.xtime (m + 1) - s.xtime m) := by
              have hc : 0 < 2 * s.accel m := by linarith
              exact (mul_le_mul_left hc).mpr hΔle
            linarith [hsq]
          have hS : S ≤ s.temp (m + 1) := by
            rw [hSdef, show s.temp (m + 1) = Real.sqrt (s.temp (m + 1) ^ 2) from
              (Real.sqrt_sq (le_of_lt hT1pos)).symm]
            exact Real.sqrt_le_sqrt hargle
          have := (div_le_div_iff_of_pos_right hapos).mpr
            (by linarith : S - s.temp m ≤ s.temp (m + 1) - s.temp m)
          linarith
      have hbne : (S - s.temp m) / s.accel m + s.rxtime m ≠ 0 := by
        intro hcon
        have := hblow
        rw [hcon] at this
        linarith
      have hfind2 : btFind s ((S - s.temp m) / s.accel m + s.rxtime m) 0 = m := by
        refine btFind_from s _ m (le_of_lt hmlt) ⟨hblow, hbhigh⟩ m 0 rfl (Nat.zero_le m) ?_
        intro j _ hj hcontra
        have hch := W.rx_chain (j + 1) m (by omega) (le_of_lt hmlt)
        linarith [hcontra.2]
      rw [beat_time_ne_eval s W.tset _ hbne m hfind2, if_neg ha]
      have hsimp : (S - s.temp m) / s.accel m + s.rxtime m - s.rxtime m =
          (S - s.temp m) / s.accel m := by ring
      rw [hsimp, div_mul_cancel₀ _ ha]
      have hS2 : S - s.temp m + s.temp m = S := by ring
      rw [hS2, hSsq]
      have hfin : s.temp m ^ 2 + 2 * s.accel m * (t - s.xtime m) - s.temp m ^ 2 =
          2 * s.accel m * (t - s.xtime m) := by ring
      rw [hfin]
      have h2ne : (2 : ℝ) * s.accel m ≠ 0 := by
        intro hcon
        rcases mul_eq_zero.mp hcon with h | h
        · norm_num at h
        · exact ha h
      rw [mul_div_cancel_left₀ _ h2ne]
      ring

/-- A legal `tempo(…)` argument vector: a positive basis, an even
number (between 2 and `TLEN`) of values forming pairs
`t₀,T₀,t₁,T₁,…` with `0 ≤ t₀`, nondecreasing times staying below the
sentinel, and strictly positive tempo values. -/
structure LegalTempoArgs (basis : ℝ) (p : List ℝ) : Prop where
  basis_pos : 0 < basis
  even_len : p.length % 2 = 0
  len_lb : 2 ≤ p.length
  len_ub : p.length ≤ TLEN
  first_time : 0 ≤ p.getD 0 0
  tempos_pos : ∀ k, 2 * k + 1 < p.length → 0 < p.getD (2 * k + 1) 0
  times_mono : ∀ k, 2 * (k + 1) < p.length → p.getD (2 * k) 0 ≤ p.getD (2 * (k + 1)) 0
  last_time : p.getD (p.length - 2) 0 < tempoSentinel

/-- What a successful fill produces: every pair is consumed
(`npts' = npts + (n_args - m)/2`), slots `npts … npts'-1` hold the
pairs, everything else is untouched. -/
theorem tempoFill_success_spec (p : List ℝ) (basis : ℝ)
    (heven : p.length % 2 = 0) (hub : p.length ≤ TLEN) (hlb : 2 ≤ p.length)
    (hnz : ∀ k, 2 * k + 1 < p.length → p.getD (2 * k + 1) 0 / basis ≠ 0) :
    ∀ n m npts xt tp, TLEN - m = n → m = 2 * (npts - 1) → 1 ≤ npts → m ≤ p.length →
    (tempoFill p basis m npts xt tp).2.2.2 = true ∧
    (tempoFill p basis m npts xt tp).2.2.1 = npts + (p.length - m) / 2 ∧
    (∀ i, npts ≤ i → i < npts + (p.length - m) / 2 →
      (tempoFill p basis m npts xt tp).1 i = p.getD (2 * (i - 1)) 0 ∧
      (tempoFill p basis m npts xt tp).2.1 i = p.getD (2 * (i - 1) + 1) 0 / basis) ∧
    (∀ i, ¬ (npts ≤ i ∧ i < npts + (p.length - m) / 2) →
      (tempoFill p basis m npts xt tp).1 i = xt i ∧
      (tempoFill p basis m npts xt tp).2.1 i = tp i) := by
  intro n
  induction n using Nat.strong_induction_on with
  | _ n ih =>
    intro m npts xt tp hn hm hnp hmlen
    rw [tempoFill]
    by_cases hstop : TLEN ≤ m
    · rw [if_pos hstop]
      have hm2 : p.length = m := by omega
      refine ⟨rfl, by dsimp only; omega, ?_, ?_⟩
      · intro i hi1 hi2
        omega
      · intro i _
        exact ⟨rfl, rfl⟩
    · rw [if_neg hstop]
      by_cases hbreak : m ≠ 0 ∧ p.length ≤ m
      · rw [if_pos hbreak]
        have hm2 : p.length = m := by omega
        refine ⟨rfl, by dsimp only; omega, ?_, ?_⟩
        · intro i hi1 hi2
          omega
        · intro i _
          exact ⟨rfl, rfl⟩
      · rw [if_neg hbreak]
        have hmlt : m < p.length := by
          rcases Nat.eq_or_lt_of_le hmlen with h | h
          · exfalso
            apply hbreak
            omega
          · exact h
        have hm1lt : m + 1 < p.length := by omega
        have hn0 : Function.update tp npts (p.getD (m + 1) 0 / basis) npts ≠ 0 := by
          rw [Function.update_same]
          have := hnz (npts - 1) (by omega)
          have he : 2 * (npts - 1) + 1 = m + 1 := by omega
          rwa [he] at this
        rw [if_neg hn0]
        have hrec := ih (TLEN - (m + 2)) (by omega) (m + 2) (npts + 1)
          (Function.update xt npts (p.getD m 0))
          (Function.update tp npts (p.getD (m + 1) 0 / basis))
          rfl (by omega) (by omega) (by omega)
        obtain ⟨hA, hB, hC, hD⟩ := hrec
        have hcount : npts + 1 + (p.length - (m + 2)) / 2 =
            npts + (p.length - m) / 2 := by omega
        refine ⟨hA, by rw [hB]; omega, ?_, ?_⟩
        · intro i hi1 hi2
          rcases Nat.eq_or_lt_of_le hi1 with hie | hlt
          · have hu := hD i (by omega)
            rw [hu.1, hu.2, ← hie, Function.update_same, Function.update_same]
            constructor
            · rw [hm]
            · rw [hm]
          · exact hC i (by omega) (by omega)
        · intro i hi
          have hu := hD i (by omega)
          have hne : i ≠ npts := by omega
          rw [hu.1, hu.2, Function.update_noteq hne _ _, Function.update_noteq hne _ _]
          exact ⟨rfl, rfl⟩

/-- A legal `tempo(…)` call succeeds and establishes a well-formed
tempo map whose final breakpoint count is `n_args/2 + 1` and whose
final breakpoint time is the sentinel. -/
theorem tempo_legal_spec (s0 : TempoState) (p : List ℝ)
    (hl : LegalTempoArgs s0.basis p) :
    (tempo p s0).2 = true ∧
    WellFormedMap (tempo p s0).1 ∧
    (tempo p s0).1.npts = p.length / 2 + 1 ∧
    (tempo p s0).1.xtime ((tempo p s0).1.npts) = tempoSentinel ∧
    (∀ i, 1 ≤ i → i < (tempo p s0).1.npts →
      (tempo p s0).1.xtime i = p.getD (2 * (i - 1)) 0) ∧
    (∀ i, (tempo p s0).1.npts < i →
      (tempo p s0).1.xtime i = zeroLow s0.xtime i ∧
      (tempo p s0).1.accel i = zeroLow s0.accel i ∧
      (tempo p s0).1.rxtime i = zeroLow s0.rxtime i) := by
  have heven := hl.even_len
  have hlb := hl.len_lb
  have hnz : ∀ k, 2 * k + 1 < p.length → p.getD (2 * k + 1) 0 / s0.basis ≠ 0 := by
    intro k hk
    exact ne_of_gt (div_pos (hl.tempos_pos k hk) hl.basis_pos)
  have hfill := tempoFill_success_spec p s0.basis hl.even_len hl.len_ub hl.len_lb hnz
    (TLEN - 0) 0 1 (zeroLow s0.xtime) (zeroLow s0.temp) rfl (by omega) (le_refl 1)
    (by omega)
  rcases hres : tempoFill p s0.basis 0 1 (zeroLow s0.xtime) (zeroLow s0.temp)
    with ⟨xt, tp, np, flag⟩
  rw [hres] at hfill
  dsimp only at hfill
  obtain ⟨hflag, hnp, hwrites, huntouched⟩ := hfill
  subst hflag
  have hnp2 : 2 ≤ np := by omega
  have hnp0 : np ≠ 0 := by omega
  have hlen0 : ¬ p.length = 0 := by omega
  have htempo : tempo p s0 =
      ({ s0 with
          xtime := postXt xt np,
          temp := postTp tp np,
          rxtime := fun i => if i ≤ np then rxtimeOf (postXt xt np) (postTp tp np) i
                             else zeroLow s0.rxtime i,
          accel := fun i => if i < np then accelOf (postXt xt np) (postTp tp np) i
                            else if i = 0 then 0 else zeroLow s0.accel i,
          tset := true,
          npts := np }, true) := by
    unfold tempo
    rw [if_neg hlen0, hres]
  have hxtw : ∀ i, 1 ≤ i → i < np → xt i = p.getD (2 * (i - 1)) 0 := by
    intro i h1 h2
    exact (hwrites i h1 (by omega)).1
  have htpw : ∀ i, 1 ≤ i → i < np → tp i = p.getD (2 * (i - 1) + 1) 0 / s0.basis := by
    intro i h1 h2
    exact (hwrites i h1 (by omega)).2
  have hxtu : ∀ i, np ≤ i → xt i = zeroLow s0.xtime i := by
    intro i hi
    exact (huntouched i (by omega)).1
  have hX0 : postXt xt np 0 = 0 := by
    rw [postXt, Function.update_same]
  have hXnp : postXt xt np np = tempoSentinel := by
    rw [postXt, Function.update_noteq hnp0 _ _, Function.update_same]
  have hXmid : ∀ i, i ≠ 0 → i ≠ np → postXt xt np i = xt i := by
    intro i h0 hn
    rw [postXt, Function.update_noteq h0 _ _, Function.update_noteq hn _ _]
  have hT0 : postTp tp np 0 = tp 1 := by
    rw [postTp, Function.update_same]
  have hTnp : postTp tp np np = tp (np - 1) := by
    rw [postTp, Function.update_noteq hnp0 _ _, Function.update_same]
  have hTmid : ∀ i, i ≠ 0 → i ≠ np → postTp tp np i = tp i := by
    intro i h0 hn
    rw [postTp, Function.update_noteq h0 _ _, Function.update_noteq hn _ _]
  have hXval : ∀ i, 1 ≤ i → i < np → postXt xt np i = p.getD (2 * (i - 1)) 0 := by
    intro i h1 h2
    rw [hXmid i (by omega) (by omega), hxtw i h1 h2]
  have hTval : ∀ i, 1 ≤ i → i < np →
      postTp tp np i = p.getD (2 * (i - 1) + 1) 0 / s0.basis := by
    intro i h1 h2
    rw [hTmid i (by omega) (by omega), htpw i h1 h2]
  have hTpos : ∀ m, m ≤ np → 0 < postTp tp np m := by
    intro m hm
    rcases Nat.eq_zero_or_pos m with h0 | h1
    · subst h0
      rw [hT0, htpw 1 (le_refl 1) (by omega)]
      exact div_pos (hl.tempos_pos (1 - 1) (by omega)) hl.basis_pos
    · rcases Nat.lt_or_ge m np with hmlt | hmge
      · rw [hTval m h1 hmlt]
        exact div_pos (hl.tempos_pos (m - 1) (by omega)) hl.basis_pos
      · have hmeq : m = np := by omega
        subst hmeq
        rw [hTnp, htpw (m - 1) (by omega) (by omega)]
        exact div_pos (hl.tempos_pos (m - 1 - 1) (by omega)) hl.basis_pos
  rw [htempo]
  refine ⟨rfl, ?_, by dsimp only; omega, by dsimp only; exact hXnp, ?_, ?_⟩
  case refine_2 =>
    intro i h1 h2
    dsimp only at h2 ⊢
    exact hXval i h1 h2
  case refine_3 =>
    intro i hi
    dsimp only at hi ⊢
    refine ⟨?_, ?_, ?_⟩
    · rw [hXmid i (by omega) (by omega), hxtu i (by omega)]
    · rw [if_neg (by omega), if_neg (by omega)]
    · rw [if_neg (by omega)]
  refine ⟨rfl, by dsimp only; omega, hX0, ?_, ?_, hTpos, ?_, ?_, ?_⟩
  · dsimp only
    rw [if_pos (Nat.zero_le np), rxtimeOf]
  · dsimp only
    rw [hT0, hTmid 1 one_ne_zero (by omega)]
  · intro m hm
    dsimp only at hm ⊢
    rcases Nat.eq_zero_or_pos m with h0 | h1
    · subst h0
      rw [hX0, Nat.zero_add, hXval 1 (le_refl 1) (by omega)]
      have he : 2 * (1 - 1) = 0 := by norm_num
      rw [he]
      exact hl.first_time
    · rcases Nat.lt_or_ge (m + 1) np with hsl | hsg
      · rw [hXval m h1 (by omega), hXval (m + 1) (by omega) hsl]
        have e1 : m + 1 - 1 = m - 1 + 1 := by omega
        rw [e1]
        exact hl.times_mono (m - 1) (by omega)
      · have hmeq : m + 1 = np := by omega
        rw [hmeq, hXnp, hXval m h1 (by omega)]
        have e2 : 2 * (m - 1) = p.length - 2 := by omega
        rw [e2]
        exact le_of_lt hl.last_time
  · intro m hm
    dsimp only at hm ⊢
    rw [if_pos hm]
  · intro m hm
    dsimp only at hm ⊢
    rw [if_pos (show m + 1 ≤ np by omega), if_pos (show m ≤ np by omega), if_pos hm,
      rxtimeOf]

open Classical in
/-- Evaluation of `time_beat` when the segment search falls off the end
(`m = npts + 1`): `durp` stays 0 and the junk slot's `accel`/`rxtime`
are read.  In C the corresponding division is `0/temp[npts+1]`
(`0/0 = NaN` on a freshly zeroed slot); over `ℝ`, `0 / x = 0`
unconditionally, so the model returns 0. -/
theorem time_beat_off_eval (s : TempoState) (hset : s.tset = true) (t0 : ℝ)
    (hpos : 0 < t0) (m : ℕ) (hfind : tbFind s t0 0 = m) (hm : ¬ m ≤ s.npts)
    (ha : s.accel m = 0) (hr : s.rxtime m = 0) :
    time_beat s t0 = 0 := by
  unfold time_beat
  rw [if_neg (by linarith : ¬ t0 < 0), if_neg (by rw [hset]; simp), if_pos hpos, hfind]
  dsimp only
  rw [if_neg (show ¬ (0 < t0 ∧ m ≤ s.npts) from fun h => hm h.2), if_pos ha,
    zero_div, zero_add, hr]

/-- The spec's S2 tempo map: `tbase(60); tempo(0, 60, 4, 120)`
(`BASIS` is already 60 in the initial state). -/
noncomputable def s2map : TempoState := (tempo [0, 60, 4, 120] initTempoState).1

theorem s2map_def : s2map = (tempo [0, 60, 4, 120] initTempoState).1 := rfl

/-- The S2 argument vector is legal. -/
theorem legalS2 : LegalTempoArgs initTempoState.basis [0, 60, 4, 120] := by
  have hb : initTempoState.basis = 60 := rfl
  rw [hb]
  refine ⟨by norm_num, by norm_num, by norm_num, by norm_num [TLEN], by norm_num,
    ?_, ?_, by norm_num [tempoSentinel]⟩
  · intro k hk
    norm_num at hk
    have hk2 : k = 0 ∨ k = 1 := by omega
    rcases hk2 with h | h <;> subst h <;> norm_num
  · intro k hk
    norm_num at hk
    have hk2 : k = 0 := by omega
    subst hk2
    norm_num

/-- Concrete array values of the S2 map: three breakpoints
(`0`, `4`, sentinel), and the slot past the end still zero. -/
theorem s2map_eval :
    WellFormedMap s2map ∧ s2map.npts = 3 ∧
    s2map.xtime s2map.npts = tempoSentinel ∧
    s2map.xtime 1 = 0 ∧ s2map.xtime 2 = 4 ∧ s2map.xtime 4 = 0 ∧
    s2map.accel 4 = 0 ∧ s2map.rxtime 4 = 0 := by
  obtain ⟨-, W, hnp, hsent, hval, hjunk⟩ :=
    tempo_legal_spec initTempoState [0, 60, 4, 120] legalS2
  rw [← s2map_def] at hnp hsent hval hjunk
  norm_num at hnp
  have hx1 := hval 1 (le_refl 1) (by omega)
  norm_num at hx1
  have hx2 := hval 2 (by omega) (by omega)
  norm_num at hx2
  obtain ⟨hx4, ha4, hr4⟩ := hjunk 4 (by omega)
  norm_num [zeroLow, TLEN, initTempoState] at hx4 ha4 hr4
  exact ⟨W, hnp, hsent, hx1, hx2, hx4, ha4, hr4⟩

/-- On the S2 map the search for `t = 10^11` (beyond the sentinel)
falls off the end: `m = npts + 1 = 4`. -/
theorem s2map_tbFind : tbFind s2map 100000000000 0 = 4 := by
  obtain ⟨W, hnp, hsent, hx1, hx2, hx4, -, -⟩ := s2map_eval
  have hx3 : s2map.xtime 3 = tempoSentinel := by rw [← hnp]; exact hsent
  rw [tbFind, if_neg (by omega), if_neg (by norm_num [hx1])]
  rw [tbFind, if_neg (by omega), if_neg (by norm_num [hx1, hx2])]
  rw [tbFind, if_neg (by omega), if_neg (by norm_num [hx2, hx3, tempoSentinel])]
  rw [tbFind, if_neg (by omega), if_neg (by norm_num [hx3, hx4, tempoSentinel])]
  rw [tbFind, if_pos (by omega)]

theorem s2map_time_beat : time_beat s2map 100000000000 = 0 := by
  obtain ⟨W, hnp, -, -, -, -, ha4, hr4⟩ := s2map_eval
  exact time_beat_off_eval s2map W.tset 100000000000 (by norm_num) 4 s2map_tbFind
    (by omega) ha4 hr4

theorem s2map_rx_top_nonneg : (0 : ℝ) ≤ s2map.rxtime s2map.npts := by
  obtain ⟨W, -⟩ := s2map_eval
  have h := W.rx_chain 0 s2map.npts (Nat.zero_le _) (le_refl _)
  rwa [W.rxtime0] at h

theorem s2map_x_top_ge : (4 : ℝ) ≤ s2map.xtime s2map.npts := by
  obtain ⟨-, -, hsent, -⟩ := s2map_eval
  rw [hsent]
  norm_num [tempoSentinel]

/-- Claim C5: for any legal tempo map built by `tempo(...)`, and any
beat `b` and time `t` within the map's range — `0 ≤ b ≤ rxtime[npts]`
and `0 ≤ t ≤ xtime[npts]` (the sentinel, ≈10^10) — the two lookups are
exact mutual inverses in real arithmetic: `time_beat(beat_time(b)) = b`
and `beat_time(time_beat(t)) = t` (so certainly within 1e-6).  The
range restriction is necessary: beyond the sentinel the roundtrip
fails (see the counterexample). -/
theorem tempo_roundtrip_spec (s0 : TempoState) (p : List ℝ)
    (hl : LegalTempoArgs s0.basis p) (b t : ℝ)
    (hb0 : 0 ≤ b) (hb1 : b ≤ (tempo p s0).1.rxtime ((tempo p s0).1.npts))
    (ht0 : 0 ≤ t) (ht1 : t ≤ (tempo p s0).1.xtime ((tempo p s0).1.npts)) :
    time_beat (tempo p s0).1 (beat_time (tempo p s0).1 b) = b ∧
    beat_time (tempo p s0).1 (time_beat (tempo p s0).1 t) = t := by
  obtain ⟨-, W, -, -, -, -⟩ := tempo_legal_spec s0 p hl
  exact ⟨W.roundtrip_beat b hb0 hb1, W.roundtrip_time t ht0 ht1⟩

/-- Claim C5, counterexample: with the spec's own S2 map
(`tempo(0, 60, 4, 120)` at `BASIS = 60`) — a legal map — the time
`t = 10^11 ≥ 0` lies beyond the sentinel breakpoint; the segment
search falls off the end and `beat_time(time_beat(t)) = 0`, which is
not within 1e-6 of `t`.  This refutes the claim's unrestricted
"any t ≥ 0".  (In C the same lookup computes `0/temp[npts+1] = 0/0`,
a NaN, which also violates the 1e-6 bound; the `ℝ` model returns the
junk value 0.) -/
theorem tempo_roundtrip_cex :
    LegalTempoArgs initTempoState.basis [0, 60, 4, 120] ∧
    (0 : ℝ) ≤ 100000000000 ∧
    beat_time s2map (time_beat s2map 100000000000) = 0 ∧
    ¬ |beat_time s2map (time_beat s2map 100000000000) - 100000000000| ≤ 1e-6 := by
  obtain ⟨W, -⟩ := s2map_eval
  have hb0 : beat_time s2map (time_beat s2map 100000000000) = 0 := by
    rw [s2map_time_beat]
    exact beat_time_zero s2map W
  refine ⟨legalS2, by norm_num, hb0, ?_⟩
  rw [hb0, zero_sub, abs_neg, abs_of_nonneg (by norm_num : (0 : ℝ) ≤ 100000000000)]
  norm_num

/-- Witness for `tempo_roundtrip_spec`: the S2 map with `b = 0`,
`t = 4` (the time the spec itself exercises). -/
theorem tempo_roundtrip_spec_witness :
    time_beat s2map (beat_time s2map 0) = 0 ∧
    beat_time s2map (time_beat s2map 4) = 4 :=
  tempo_roundtrip_spec initTempoState [0, 60, 4, 120] legalS2 0 4
    le_rfl s2map_rx_top_nonneg (by norm_num) s2map_x_top_ge

/-! ## Bus graph (bus_config.cpp): claims C1 and C2

The model covers the bus-graph statics mutated by `bus_config` and its
helpers `check_bus_inst_config`, `insert_bus_slot`, `bf_traverse` and
`create_play_order`.  Bus indices are `ℕ`; `busCount` (`bc`) is a
parameter.  `In_Config` per-bus parent lists are `List ℕ` (the first
`bus_count` entries of the C `CheckNode` array).  `RevPlay` is kept as
the list of assignments made by the last check (`RevPlay` slot `i`
holds element `i`, all other slots `-1`), and `AuxToAuxPlayList` as
the prefix written by the last `create_play_order` (the C array may
retain stale entries beyond it).  `OutInUse`, `ToOutPlayList` and
`ToAuxPlayList` — scratch data rebuilt on every check and not
referenced by the claims — are not modelled. -/

/-- The fictitious parent bus number used by `bf_traverse`
(`auxout[0] = 333`), filtered out by `insert_bus_slot`. -/
def busSentinel : ℕ := 333

/-- The append into `In_Config` with the "bus-wrapping hackeroo" of
`insert_bus_slot`: the entry is stored and `bus_count` incremented,
but a count reaching `busCount` is reset to 0, logically emptying the
list. -/
def busWrapAppend (bc : ℕ) (l : List ℕ) (a : ℕ) : List ℕ :=
  if bc ≤ l.length + 1 then [] else l ++ [a]

/-- The bus-graph statics of bus_config.cpp. -/
structure BusState where
  In_Config : ℕ → List ℕ
  AuxInUse : ℕ → Bool
  AuxOutInUse : ℕ → Bool
  HasParent : ℕ → Bool
  HasChild : ℕ → Bool
  Visited : ℕ → Bool
  RevPlay : List ℕ
  AuxToAuxPlayList : List ℕ

/-- The statics before any configuration: empty parent lists (the
first check allocates all `In_Config` nodes empty), all flags clear. -/
def initBusState : BusState :=
  ⟨fun _ => [], fun _ => false, fun _ => false, fun _ => false, fun _ => false,
   fun _ => false, [], []⟩

/-- Largest `In_Config` length among buses `< bc` (used only to
measure the BFS recursion). -/
def maxInLen (bc : ℕ) (g : ℕ → List ℕ) : ℕ :=
  ((List.range bc).map fun i => (g i).length).foldr max 0

/-- Number of buses `< bc` not yet visited (used only to measure the
BFS recursion). -/
def countUnvis (bc : ℕ) (vis : ℕ → Bool) : ℕ :=
  ((Finset.range bc).filter fun i => vis i = false).card

theorem le_foldr_max (l : List ℕ) (x : ℕ) (hx : x ∈ l) : x ≤ l.foldr max 0 := by
  induction l with
  | nil => cases hx
  | cons a t ih =>
      rcases List.mem_cons.mp hx with h | h
      · rw [h]
        exact le_max_left _ _
      · exact le_trans (ih h) (le_max_right _ _)

theorem length_le_maxInLen (bc : ℕ) (g : ℕ → List ℕ) (i : ℕ) (hi : i < bc) :
    (g i).length ≤ maxInLen bc g :=
  le_foldr_max _ _ (List.mem_map.mpr ⟨i, List.mem_range.mpr hi, rfl⟩)

theorem countUnvis_update (bc : ℕ) (vis : ℕ → Bool) (t : ℕ) (ht : t < bc)
    (hv : vis t = false) :
    countUnvis bc (Function.update vis t true) + 1 = countUnvis bc vis := by
  unfold countUnvis
  have hset : ((Finset.range bc).filter fun i => Function.update vis t true i = false) =
      ((Finset.range bc).filter fun i => vis i = false).erase t := by
    ext i
    simp only [Finset.mem_filter, Finset.mem_erase, Finset.mem_range]
    constructor
    · rintro ⟨hib, hup⟩
      by_cases hit : i = t
      · rw [hit, Function.update_same] at hup
        cases hup
      · rw [Function.update_noteq hit _ _] at hup
        exact ⟨hit, hib, hup⟩
    · rintro ⟨hit, hib, hvi⟩
      exact ⟨hib, by rw [Function.update_noteq hit _ _]; exact hvi⟩
  have hmem : t ∈ (Finset.range bc).filter fun i => vis i = false := by
    simp only [Finset.mem_filter, Finset.mem_range]
    exact ⟨ht, hv⟩
  rw [hset, Finset.card_erase_of_mem hmem]
  have hpos : 0 < ((Finset.range bc).filter fun i => vis i = false).card :=
    Finset.card_pos.mpr ⟨t, hmem⟩
  omega

/-- The queue-walk of `check_bus_inst_config` (bus_config.cpp lines
289–342).  The queue holds `CheckNode` bus lists (the head list
partially consumed).  For each entry `t`: if `t` is unchecked it is
compared against every `auxout` entry, `LOOP_ERR` (first component
`true`) on a match; then `Checked[t]` is set; then, when `t` has a
nonempty `In_Config` and is unvisited, `t` is appended to the
`RevPlay` assignments when `HasParent[t]`, marked visited, and its
`In_Config` list enqueued at the tail.  The guard `t < bc` has no C
counterpart: the C code indexes `BusConfigs[t]`/`Visited[t]` without a
bounds check (entries are always `< busCount` for slots built by
`bus_config`, since `parse_bus_chan` validates channels); the guard
makes the recursion total.  Returns
(loop-error, Checked, Visited, RevPlay assignments). -/
def cbBFS (bc : ℕ) (g : ℕ → List ℕ) (hp : ℕ → Bool) (auxout : List ℕ)
    (checked visited : ℕ → Bool) (rev : List ℕ) (queue : List (List ℕ)) :
    Bool × (ℕ → Bool) × (ℕ → Bool) × List ℕ :=
  match queue with
  | [] => (false, checked, visited, rev)
  | [] :: rest => cbBFS bc g hp auxout checked visited rev rest
  | (t :: ts) :: rest =>
      if checked t = false ∧ t ∈ auxout then (true, checked, visited, rev)
      else if h : 0 < (g t).length ∧ visited t = false ∧ t < bc then
        cbBFS bc g hp auxout (Function.update checked t true)
          (Function.update visited t true)
          (if hp t = true then rev ++ [t] else rev) ((ts :: rest) ++ [g t])
      else
        cbBFS bc g hp auxout (Function.update checked t true) visited rev (ts :: rest)
termination_by (countUnvis bc visited, (queue.map List.length).sum + queue.length)
decreasing_by
  · apply Prod.Lex.right
    simp only [List.map_cons, List.sum_cons, List.length_cons, List.length_nil]
    omega
  · apply Prod.Lex.left
    have h1 := countUnvis_update bc visited t h.2.2 h.2.1
    omega
  · apply Prod.Lex.right
    simp only [List.map_cons, List.sum_cons, List.length_cons]
    omega

/-- `check_bus_inst_config(slot, visit)` (bus_config.cpp): the reset
loop clears every bus's `RevPlay` (and `Visited` when `visit`), the
local `Checked` array starts clear, and the BFS runs from the slot's
`auxin` list against its `auxout` list.  (The same loop also rebuilds
`ToOutPlayList`/`ToAuxPlayList` from the `OutInUse`/`AuxOutInUse`
flags — scratch state not modelled.)  Returns the loop-error flag and
the state with the new `Visited`/`RevPlay`. -/
def check_bus_inst_config (bc : ℕ) (st : BusState) (auxin auxout : List ℕ)
    (visit : Bool) : Bool × BusState :=
  let vis0 := if visit then (fun _ => false) else st.Visited
  let r := cbBFS bc st.In_Config st.HasParent auxout (fun _ => false) vis0 [] [auxin]
  (r.1, { st with Visited := r.2.2.1, RevPlay := r.2.2.2 })

/-- `bf_traverse(bus, visit)` (bus_config.cpp): a synthetic slot with
`auxin = [bus]`, `auxout = [333]` run through the checker to recompute
`RevPlay`. -/
def bf_traverse (bc : ℕ) (st : BusState) (bus : ℕ) (visit : Bool) : BusState :=
  (check_bus_inst_config bc st [bus] [busSentinel] visit).2

/-- One inner-loop iteration of `insert_bus_slot` (bus_config.cpp,
lines 377–410), for output bus `sOut` and input bus `sIn`: set
`HasParent[sOut]` when it is clear and `sIn` is a real bus (not the
333 sentinel); and for a real `sIn` append it to `In_Config[sOut]`
(with the wrap) and set `HasChild[sIn]`, `AuxInUse[sIn]`.  (The C
code routes these through an intermediate state `s3`; the HasParent
update does not affect the other fields, so the per-field conditionals
here are the same function.) -/
def insert_one (bc : ℕ) (sOut : ℕ) (s2 : BusState) (sIn : ℕ) : BusState :=
  { s2 with
      HasParent := if s2.HasParent sOut = false ∧ sIn ≠ busSentinel then
          Function.update s2.HasParent sOut true
        else s2.HasParent,
      In_Config := if sIn ≠ busSentinel then
          Function.update s2.In_Config sOut
            (busWrapAppend bc (s2.In_Config sOut) sIn)
        else s2.In_Config,
      HasChild := if sIn ≠ busSentinel then Function.update s2.HasChild sIn true
        else s2.HasChild,
      AuxInUse := if sIn ≠ busSentinel then Function.update s2.AuxInUse sIn true
        else s2.AuxInUse }

/-- One outer-loop iteration of `insert_bus_slot`: set
`AuxInUse[sOut]`, then run the inner loop over `auxin`. -/
def insert_out (bc : ℕ) (auxin : List ℕ) (s : BusState) (sOut : ℕ) : BusState :=
  auxin.foldl (insert_one bc sOut)
    { s with AuxInUse := Function.update s.AuxInUse sOut true }

/-- `insert_bus_slot` (bus_config.cpp), graph part: the double loop
over the slot's `auxout`/`auxin` lists.  (The `Inst_Bus_Config` queue
of named slots is not part of the bus graph and is not modelled.) -/
def insert_bus_slot (bc : ℕ) (st : BusState) (auxin auxout : List ℕ) : BusState :=
  auxout.foldl (insert_out bc auxin) st

/-- `create_play_order` (bus_config.cpp): seed `AuxToAuxPlayList` with
the roots (`AuxInUse && !HasParent`, ascending); then for every
childless in-use bus (`AuxInUse && !HasChild`, ascending) run
`bf_traverse` (`visit` true only for the first) and append the
`RevPlay` entries scanned from slot `busCount-1` down to 0 — i.e. the
reversed `RevPlay` assignment list. -/
def create_play_order (bc : ℕ) (st : BusState) : BusState :=
  let roots := (List.range bc).filter fun i => st.AuxInUse i && ! st.HasParent i
  let st1 := { st with AuxToAuxPlayList := roots }
  ((List.range bc).foldl (fun acc i =>
      if acc.1.AuxInUse i && ! acc.1.HasChild i then
        let s := bf_traverse bc acc.1 i acc.2
        ({ s with AuxToAuxPlayList := s.AuxToAuxPlayList ++ s.RevPlay.reverse }, false)
      else acc)
    (st1, true)).1

/-- `bus_config` (bus_config.cpp), bus-graph effect for a call whose
parsed arguments are the aux-in list `auxin` and aux-out list
`auxout`: the argument-parse loop sets `AuxOutInUse[k]` for every
aux-out channel `k` *before* any checking; then
`check_bus_inst_config` runs; on a loop error the call stops with
`LOOP_ERR` (`insert_bus_slot` and `create_play_order` never run — the
C code dies via `RTExit`, which in embedded builds returns control to
the caller, per the spec's expectation that the call returns the
error); otherwise the slot is inserted and the play order rebuilt. -/
def bus_config (bc : ℕ) (st : BusState) (auxin auxout : List ℕ) :
    BusState × ErrCode :=
  let st1 := { st with
    AuxOutInUse := auxout.foldl (fun f k => Function.update f k true) st.AuxOutInUse }
  let chk := check_bus_inst_config bc st1 auxin auxout true
  if chk.1 then (chk.2, ErrCode.LOOP_ERR)
  else (create_play_order bc (insert_bus_slot bc chk.2 auxin auxout), ErrCode.NO_ERR)

/-- `b ∈ g a`: bus `b` is a parent of bus `a` (edge of the aux graph,
`b` feeds `a`). -/
def busEdge (g : ℕ → List ℕ) (a b : ℕ) : Prop := b ∈ g a

/-- No bus is in its own transitive parent set. -/
def BusAcyclic (g : ℕ → List ℕ) : Prop :=
  ∀ k, ¬ Relation.TransGen (busEdge g) k k

theorem update_true_mono (f : ℕ → Bool) (z y : ℕ) (hy : f y = true) :
    Function.update f z true y = true := by
  by_cases hyz : y = z
  · rw [hyz, Function.update_same]
  · rw [Function.update_noteq hyz _ _]
    exact hy

/-- Worklist invariants of the `check_bus_inst_config` BFS: if the
walk finishes without a loop error then the final `Checked` set (i)
contains every initially checked bus, (ii) contains every bus pending
in the queue, (iii) avoids `auxout`, and (iv) is closed under
`In_Config` parent edges for in-range buses with a nonempty list. -/
theorem cbBFS_sound (bc : ℕ) (g : ℕ → List ℕ) (hp : ℕ → Bool) (auxout : List ℕ)
    (checked visited : ℕ → Bool) (rev : List ℕ) (queue : List (List ℕ)) :
    (cbBFS bc g hp auxout checked visited rev queue).1 = false →
    (∀ x, checked x = true → x ∉ auxout) →
    (∀ x, checked x = true → 0 < (g x).length → x < bc → visited x = true) →
    (∀ x, visited x = true → ∀ y ∈ g x, checked y = true ∨ ∃ l ∈ queue, y ∈ l) →
    (∀ x, checked x = true →
      (cbBFS bc g hp auxout checked visited rev queue).2.1 x = true) ∧
    (∀ l ∈ queue, ∀ y ∈ l,
      (cbBFS bc g hp auxout checked visited rev queue).2.1 y = true) ∧
    (∀ x, (cbBFS bc g hp auxout checked visited rev queue).2.1 x = true →
      x ∉ auxout) ∧
    (∀ x, (cbBFS bc g hp auxout checked visited rev queue).2.1 x = true →
      0 < (g x).length → x < bc → ∀ y ∈ g x,
      (cbBFS bc g hp auxout checked visited rev queue).2.1 y = true) := by
  induction checked, visited, rev, queue using cbBFS.induct bc g hp auxout with
  | case1 checked visited rev =>
      intro hres h1 h2 h3
      have hstep : cbBFS bc g hp auxout checked visited rev [] =
          (false, checked, visited, rev) := by rw [cbBFS]
      rw [hstep] at hres ⊢
      refine ⟨fun x hx => hx, ?_, h1, ?_⟩
      · intro l hl
        cases hl
      · intro x hx hpos hlt y hy
        rcases h3 x (h2 x hx hpos hlt) y hy with hc | ⟨l, hl, -⟩
        · exact hc
        · cases hl
  | case2 checked visited rev rest ih =>
      intro hres h1 h2 h3
      have hstep : cbBFS bc g hp auxout checked visited rev ([] :: rest) =
          cbBFS bc g hp auxout checked visited rev rest := by rw [cbBFS]
      rw [hstep] at hres ⊢
      have h3' : ∀ x, visited x = true → ∀ y ∈ g x,
          checked y = true ∨ ∃ l ∈ rest, y ∈ l := by
        intro x hx y hy
        rcases h3 x hx y hy with hc | ⟨l, hl, hyl⟩
        · exact Or.inl hc
        · rcases List.mem_cons.mp hl with hle | hlr
          · rw [hle] at hyl
            cases hyl
          · exact Or.inr ⟨l, hlr, hyl⟩
      obtain ⟨c1, c2, c3, c4⟩ := ih hres h1 h2 h3'
      refine ⟨c1, ?_, c3, c4⟩
      intro l hl y hy
      rcases List.mem_cons.mp hl with hle | hlr
      · rw [hle] at hy
        cases hy
      · exact c2 l hlr y hy
  | case3 checked visited rev t ts rest hcond =>
      intro hres h1 h2 h3
      have hstep : cbBFS bc g hp auxout checked visited rev ((t :: ts) :: rest) =
          (true, checked, visited, rev) := by
        rw [cbBFS]
        rw [if_pos hcond]
      rw [hstep] at hres
      cases hres
  | case4 checked visited rev t ts rest hcond h ih =>
      intro hres h1 h2 h3
      have hstep : cbBFS bc g hp auxout checked visited rev ((t :: ts) :: rest) =
          cbBFS bc g hp auxout (Function.update checked t true)
            (Function.update visited t true)
            (if hp t = true then rev ++ [t] else rev) ((ts :: rest) ++ [g t]) := by
        rw [cbBFS]
        rw [if_neg hcond, dif_pos h]
      rw [hstep] at hres ⊢
      have htaux : t ∉ auxout := by
        by_cases hct : checked t = true
        · exact h1 t hct
        · intro hmem
          exact hcond ⟨by cases hcb : checked t with
            | true => exact absurd hcb hct
            | false => rfl, hmem⟩
      have h1' : ∀ x, Function.update checked t true x = true → x ∉ auxout := by
        intro x hx
        by_cases hxt : x = t
        · rw [hxt]
          exact htaux
        · rw [Function.update_noteq hxt _ _] at hx
          exact h1 x hx
      have h2' : ∀ x, Function.update checked t true x = true → 0 < (g x).length →
          x < bc → Function.update visited t true x = true := by
        intro x hx hpos hlt
        by_cases hxt : x = t
        · rw [hxt, Function.update_same]
        · rw [Function.update_noteq hxt _ _] at hx
          rw [Function.update_noteq hxt _ _]
          exact h2 x hx hpos hlt
      have h3' : ∀ x, Function.update visited t true x = true → ∀ y ∈ g x,
          Function.update checked t true y = true ∨
          ∃ l ∈ (ts :: rest) ++ [g t], y ∈ l := by
        intro x hx y hy
        by_cases hxt : x = t
        · exact Or.inr ⟨g t, List.mem_append_right _ (List.mem_singleton.mpr rfl),
            by rw [← hxt]; exact hy⟩
        · rw [Function.update_noteq hxt _ _] at hx
          rcases h3 x hx y hy with hc | ⟨l, hl, hyl⟩
          · exact Or.inl (update_true_mono checked t y hc)
          · rcases List.mem_cons.mp hl with hle | hlr
            · rw [hle] at hyl
              rcases List.mem_cons.mp hyl with hyt | hyts
              · exact Or.inl (by rw [hyt, Function.update_same])
              · exact Or.inr ⟨ts, List.mem_append_left _ (List.mem_cons_self _ _), hyts⟩
            · exact Or.inr ⟨l, List.mem_append_left _ (List.mem_cons_of_mem _ hlr), hyl⟩
      obtain ⟨c1, c2, c3, c4⟩ := ih hres h1' h2' h3'
      refine ⟨?_, ?_, c3, c4⟩
      · intro x hx
        exact c1 x (update_true_mono checked t x hx)
      · intro l hl y hy
        rcases List.mem_cons.mp hl with hle | hlr
        · rw [hle] at hy
          rcases List.mem_cons.mp hy with hyt | hyts
          · exact c1 y (by rw [hyt, Function.update_same])
          · exact c2 ts (List.mem_append_left _ (List.mem_cons_self _ _)) y hyts
        · exact c2 l (List.mem_append_left _ (List.mem_cons_of_mem _ hlr)) y hy
  | case5 checked visited rev t ts rest hcond hne ih =>
      intro hres h1 h2 h3
      have hstep : cbBFS bc g hp auxout checked visited rev ((t :: ts) :: rest) =
          cbBFS bc g hp auxout (Function.update checked t true) visited rev
            (ts :: rest) := by
        rw [cbBFS]
        rw [if_neg hcond, dif_neg hne]
      rw [hstep] at hres ⊢
      have htaux : t ∉ auxout := by
        by_cases hct : checked t = true
        · exact h1 t hct
        · intro hmem
          exact hcond ⟨by cases hcb : checked t with
            | true => exact absurd hcb hct
            | false => rfl, hmem⟩
      have h1' : ∀ x, Function.update checked t true x = true → x ∉ auxout := by
        intro x hx
        by_cases hxt : x = t
        · rw [hxt]
          exact htaux
        · rw [Function.update_noteq hxt _ _] at hx
          exact h1 x hx
      have h2' : ∀ x, Function.update checked t true x = true → 0 < (g x).length →
          x < bc → visited x = true := by
        intro x hx hpos hlt
        by_cases hxt : x = t
        · cases hv : visited t with
          | true => rw [hxt]; exact hv
          | false =>
              exfalso
              rw [hxt] at hpos hlt
              exact hne ⟨hpos, hv, hlt⟩
        · rw [Function.update_noteq hxt _ _] at hx
          exact h2 x hx hpos hlt
      have h3' : ∀ x, visited x = true → ∀ y ∈ g x,
          Function.update checked t true y = true ∨ ∃ l ∈ ts :: rest, y ∈ l := by
        intro x hx y hy
        rcases h3 x hx y hy with hc | ⟨l, hl, hyl⟩
        · exact Or.inl (update_true_mono checked t y hc)
        · rcases List.mem_cons.mp hl with hle | hlr
          · rw [hle] at hyl
            rcases List.mem_cons.mp hyl with hyt | hyts
            · exact Or.inl (by rw [hyt, Function.update_same])
            · exact Or.inr ⟨ts, List.mem_cons_self _ _, hyts⟩
          · exact Or.inr ⟨l, List.mem_cons_of_mem _ hlr, hyl⟩
      obtain ⟨c1, c2, c3, c4⟩ := ih hres h1' h2' h3'
      refine ⟨?_, ?_, c3, c4⟩
      · intro x hx
        exact c1 x (update_true_mono checked t x hx)
      · intro l hl y hy
        rcases List.mem_cons.mp hl with hle | hlr
        · rw [hle] at hy
          rcases List.mem_cons.mp hy with hyt | hyts
          · exact c1 y (by rw [hyt, Function.update_same])
          · exact c2 ts (List.mem_cons_self _ _) y hyts
        · exact c2 l (List.mem_cons_of_mem _ hlr) y hy

/-- If the check BFS from `auxin` (clear `Checked`/`Visited`, as on
the `bus_config`/`visit = YES` path) reports no loop, then no `auxout`
bus is in the reflexive-transitive parent set of any `auxin` bus. -/
theorem cbBFS_no_reach (bc : ℕ) (g : ℕ → List ℕ) (hp : ℕ → Bool)
    (auxin auxout : List ℕ)
    (hin : ∀ a ∈ auxin, a < bc) (hrange : ∀ x y, y ∈ g x → y < bc)
    (hno : (cbBFS bc g hp auxout (fun _ => false) (fun _ => false) [] [auxin]).1
      = false) :
    ∀ a ∈ auxin, ∀ o, Relation.ReflTransGen (busEdge g) a o → o ∉ auxout := by
  obtain ⟨-, c2, c3, c4⟩ := cbBFS_sound bc g hp auxout (fun _ => false)
    (fun _ => false) [] [auxin] hno (fun x hx => by cases hx)
    (fun x hx => by cases hx) (fun x hx => by cases hx)
  intro a ha o hre
  have key : ∀ o, Relation.ReflTransGen (busEdge g) a o →
      (cbBFS bc g hp auxout (fun _ => false) (fun _ => false) [] [auxin]).2.1 o
        = true ∧ o < bc := by
    intro o hre
    induction hre with
    | refl =>
        exact ⟨c2 auxin (List.mem_singleton.mpr rfl) a ha, hin a ha⟩
    | tail hab hstep ihab =>
        obtain ⟨hcb, hblt⟩ := ihab
        have hpos : 0 < (g _).length :=
          List.length_pos.mpr (List.ne_nil_of_mem hstep)
        exact ⟨c4 _ hcb hpos hblt _ hstep, hrange _ _ hstep⟩
  exact fun hmem => c3 o (key o hre).1 hmem

/-- Splitting a transitive chain over a relation `r'` refined by
`r ∨ n`: either the whole chain runs in `r`, or it contains an
`n`-step with `r'`-chains on both sides. -/
theorem transGen_decomp {α : Type} {rp r n : α → α → Prop}
    (hsub : ∀ x y, rp x y → r x y ∨ n x y) {a b : α}
    (h : Relation.TransGen rp a b) :
    Relation.TransGen r a b ∨
      ∃ x y, n x y ∧ Relation.ReflTransGen rp a x ∧ Relation.ReflTransGen rp y b := by
  induction h with
  | single hstep =>
      rcases hsub _ _ hstep with hr | hn
      · exact Or.inl (Relation.TransGen.single hr)
      · exact Or.inr ⟨a, _, hn, Relation.ReflTransGen.refl, Relation.ReflTransGen.refl⟩
  | tail hab hstep ih =>
      rcases ih with hr | ⟨x, y, hn, hax, hyb⟩
      · rcases hsub _ _ hstep with hr2 | hn2
        · exact Or.inl (hr.tail hr2)
        · exact Or.inr ⟨_, _, hn2, hab.to_reflTransGen, Relation.ReflTransGen.refl⟩
      · exact Or.inr ⟨x, y, hn, hax, hyb.tail hstep⟩

/-- Splitting a reflexive-transitive chain at its first `n`-step: either
the whole chain runs in `r`, or an `n`-step is reached by a pure
`r`-prefix. -/
theorem reflTransGen_decomp {α : Type} {rp r n : α → α → Prop}
    (hsub : ∀ x y, rp x y → r x y ∨ n x y) {a b : α}
    (h : Relation.ReflTransGen rp a b) :
    Relation.ReflTransGen r a b ∨
      ∃ x y, n x y ∧ Relation.ReflTransGen r a x ∧ Relation.ReflTransGen rp y b := by
  induction h using Relation.ReflTransGen.head_induction_on with
  | refl => exact Or.inl Relation.ReflTransGen.refl
  | head hstep htail ih =>
      rcases hsub _ _ hstep with hr | hn
      · rcases ih with hold | ⟨x, y, hn2, hcx, hyb⟩
        · exact Or.inl (Relation.ReflTransGen.head hr hold)
        · exact Or.inr ⟨x, y, hn2, Relation.ReflTransGen.head hr hcx, hyb⟩
      · exact Or.inr ⟨_, _, hn, Relation.ReflTransGen.refl, htail⟩

/-- If the old graph is acyclic and no `auxout` bus is an old ancestor
of an `auxin` bus, then adding any subset of the `auxout × auxin`
edges (and possibly dropping edges) keeps the graph acyclic. -/
theorem acyclic_of_no_reach (g gp : ℕ → List ℕ) (auxin auxout : List ℕ)
    (hsub : ∀ x y, y ∈ gp x → y ∈ g x ∨ (x ∈ auxout ∧ y ∈ auxin))
    (hacyc : BusAcyclic g)
    (hstar : ∀ a ∈ auxin, ∀ o, Relation.ReflTransGen (busEdge g) a o → o ∉ auxout) :
    BusAcyclic gp := by
  intro k hk
  have hsub' : ∀ x y, busEdge gp x y →
      busEdge g x y ∨ (x ∈ auxout ∧ y ∈ auxin) := hsub
  rcases transGen_decomp hsub' hk with hold | ⟨x, y, hn, hkx, hyk⟩
  · exact hacyc k hold
  · have hyx : Relation.ReflTransGen (busEdge gp) y x := hyk.trans hkx
    rcases reflTransGen_decomp hsub' hyx with hold2 | ⟨u, v, hn2, hyu, -⟩
    · exact hstar y hn.2 x hold2 hn.1
    · exact hstar y hn.2 u hyu hn2.1

theorem busWrapAppend_mem (bc : ℕ) (l : List ℕ) (a y : ℕ)
    (hy : y ∈ busWrapAppend bc l a) : y ∈ l ∨ y = a := by
  unfold busWrapAppend at hy
  split at hy
  · cases hy
  · rcases List.mem_append.mp hy with h | h
    · exact Or.inl h
    · exact Or.inr (List.mem_singleton.mp h)

theorem insert_one_mem (bc sOut : ℕ) (s2 : BusState) (sIn x y : ℕ)
    (hy : y ∈ (insert_one bc sOut s2 sIn).In_Config x) :
    y ∈ s2.In_Config x ∨ (x = sOut ∧ y = sIn) := by
  unfold insert_one at hy
  dsimp only at hy
  split at hy
  · by_cases hx : x = sOut
    · rw [hx, Function.update_same] at hy
      rcases busWrapAppend_mem bc _ sIn y hy with h | h
      · rw [← hx] at h
        exact Or.inl h
      · exact Or.inr ⟨hx, h⟩
    · rw [Function.update_noteq hx _ _] at hy
      exact Or.inl hy
  · exact Or.inl hy

theorem insert_inner_mem (bc sOut : ℕ) :
    ∀ (auxin : List ℕ) (s : BusState) (x y : ℕ),
    y ∈ (auxin.foldl (insert_one bc sOut) s).In_Config x →
    y ∈ s.In_Config x ∨ (x = sOut ∧ y ∈ auxin) := by
  intro auxin
  induction auxin with
  | nil =>
      intro s x y hy
      exact Or.inl hy
  | cons a t ih =>
      intro s x y hy
      rw [List.foldl_cons] at hy
      rcases ih (insert_one bc sOut s a) x y hy with h1 | ⟨hx, hyt⟩
      · rcases insert_one_mem bc sOut s a x y h1 with h2 | ⟨hx, hya⟩
        · exact Or.inl h2
        · exact Or.inr ⟨hx, by rw [hya]; exact List.mem_cons_self _ _⟩
      · exact Or.inr ⟨hx, List.mem_cons_of_mem _ hyt⟩

theorem insert_bus_slot_mem (bc : ℕ) (auxin : List ℕ) :
    ∀ (auxout : List ℕ) (st : BusState) (x y : ℕ),
    y ∈ (insert_bus_slot bc st auxin auxout).In_Config x →
    y ∈ st.In_Config x ∨ (x ∈ auxout ∧ y ∈ auxin) := by
  intro auxout
  induction auxout with
  | nil =>
      intro st x y hy
      exact Or.inl hy
  | cons o t ih =>
      intro st x y hy
      unfold insert_bus_slot at hy
      rw [List.foldl_cons] at hy
      rcases ih (insert_out bc auxin st o) x y hy with h1 | ⟨hx, hyt⟩
      · rcases insert_inner_mem bc o auxin _ x y h1 with h2 | ⟨hx, hya⟩
        · exact Or.inl h2
        · exact Or.inr ⟨by rw [hx]; exact List.mem_cons_self _ _, hya⟩
      · exact Or.inr ⟨List.mem_cons_of_mem _ hx, hyt⟩

theorem create_play_order_In_Config (bc : ℕ) (st : BusState) :
    (create_play_order bc st).In_Config = st.In_Config := by
  unfold create_play_order
  dsimp only
  have hstep : ∀ (l : List ℕ) (acc : BusState × Bool),
      (l.foldl (fun acc i =>
        if acc.1.AuxInUse i && ! acc.1.HasChild i then
          ({ bf_traverse bc acc.1 i acc.2 with
              AuxToAuxPlayList := (bf_traverse bc acc.1 i acc.2).AuxToAuxPlayList ++
                (bf_traverse bc acc.1 i acc.2).RevPlay.reverse }, false)
        else acc) acc).1.In_Config = acc.1.In_Config := by
    intro l
    induction l with
    | nil =>
        intro acc
        rfl
    | cons a t ih =>
        intro acc
        rw [List.foldl_cons, ih]
        split
        · rfl
        · rfl
  exact hstep _ _

/-- Unfolding of `bus_config` (definitional): flags set in the parse
loop, then the checker, then either the loop-error exit or
insert-and-reorder. -/
theorem bus_config_eq (bc : ℕ) (st : BusState) (auxin auxout : List ℕ) :
    bus_config bc st auxin auxout =
      (let st1 : BusState := { st with
        AuxOutInUse := auxout.foldl (fun f k => Function.update f k true)
          st.AuxOutInUse };
       let r := cbBFS bc st.In_Config st.HasParent auxout (fun _ => false)
         (fun _ => false) [] [auxin];
       if r.1 then ({ st1 with Visited := r.2.2.1, RevPlay := r.2.2.2 },
         ErrCode.LOOP_ERR)
       else (create_play_order bc (insert_bus_slot bc
           { st1 with Visited := r.2.2.1, RevPlay := r.2.2.2 } auxin auxout),
         ErrCode.NO_ERR)) := rfl

theorem initBusAcyclic : BusAcyclic initBusState.In_Config := by
  intro k hk
  cases hk with
  | single h => exact absurd h (List.not_mem_nil _)
  | tail h1 h2 => exact absurd h2 (List.not_mem_nil _)

/-- Claim C1 (corrected): with every `In_Config` entry in range (the
state invariant maintained by `bus_config`, since `parse_bus_chan`
validates channels) and in-range `auxin` channels, the aux parent
graph stays acyclic after a `bus_config` call, whether it succeeds or
is rejected: a call whose aux-in/aux-out sets would introduce a cycle
is rejected with `LOOP_ERR` by `check_bus_inst_config` before
`insert_bus_slot` runs, and the rejected call leaves `In_Config`,
`HasParent`, `HasChild` and `AuxInUse` unchanged — but *not* the whole
bus graph: the `AuxOutInUse` flags are set during argument parsing
before the cycle check (and `Visited`, `RevPlay` and the play-list
scratch arrays are rewritten), see the counterexample. -/
theorem bus_config_acyclic_spec (bc : ℕ) (st : BusState) (auxin auxout : List ℕ)
    (hacyc : BusAcyclic st.In_Config)
    (hrange : ∀ x y, y ∈ st.In_Config x → y < bc)
    (hin : ∀ a ∈ auxin, a < bc) :
    BusAcyclic (bus_config bc st auxin auxout).1.In_Config ∧
    ((bus_config bc st auxin auxout).2 = ErrCode.LOOP_ERR →
      (bus_config bc st auxin auxout).1.In_Config = st.In_Config ∧
      (bus_config bc st auxin auxout).1.HasParent = st.HasParent ∧
      (bus_config bc st auxin auxout).1.HasChild = st.HasChild ∧
      (bus_config bc st auxin auxout).1.AuxInUse = st.AuxInUse) := by
  rw [bus_config_eq]
  dsimp only
  cases hb : (cbBFS bc st.In_Config st.HasParent auxout (fun _ => false)
      (fun _ => false) [] [auxin]).1 with
  | true =>
      rw [if_pos rfl]
      constructor
      · exact hacyc
      · intro hmm
        exact ⟨rfl, rfl, rfl, rfl⟩
  | false =>
      rw [if_neg Bool.false_ne_true]
      constructor
      · show BusAcyclic (create_play_order bc _).In_Config
        rw [create_play_order_In_Config]
        refine acyclic_of_no_reach st.In_Config _ auxin auxout ?_ hacyc
          (cbBFS_no_reach bc st.In_Config st.HasParent auxin auxout hin hrange hb)
        intro x y hy
        rcases insert_bus_slot_mem bc auxin auxout _ x y hy with h | h
        · exact Or.inl h
        · exact Or.inr h
      · intro habs
        cases habs

/-- Witness for `bus_config_acyclic_spec`: the first S3 call
(`bus_config("A", "aux 0 in", "aux 1 out")`, `busCount = 2`) from the
initial state. -/
theorem bus_config_acyclic_spec_witness :
    BusAcyclic (bus_config 2 initBusState [0] [1]).1.In_Config ∧
    ((bus_config 2 initBusState [0] [1]).2 = ErrCode.LOOP_ERR →
      (bus_config 2 initBusState [0] [1]).1.In_Config = initBusState.In_Config ∧
      (bus_config 2 initBusState [0] [1]).1.HasParent = initBusState.HasParent ∧
      (bus_config 2 initBusState [0] [1]).1.HasChild = initBusState.HasChild ∧
      (bus_config 2 initBusState [0] [1]).1.AuxInUse = initBusState.AuxInUse) :=
  bus_config_acyclic_spec 2 initBusState [0] [1] initBusAcyclic
    (fun x y hy => absurd hy (List.not_mem_nil _))
    (by decide)

theorem cbBFS_err_head (bc : ℕ) (g : ℕ → List ℕ) (hp : ℕ → Bool) (auxout : List ℕ)
    (checked visited : ℕ → Bool) (rev : List ℕ) (t : ℕ) (ts : List ℕ)
    (rest : List (List ℕ)) (hc : checked t = false) (hmem : t ∈ auxout) :
    cbBFS bc g hp auxout checked visited rev ((t :: ts) :: rest) =
      (true, checked, visited, rev) := by
  rw [cbBFS]
  rw [if_pos ⟨hc, hmem⟩]

/-- Claim C1, counterexample: the self-loop call
`bus_config("C", "aux 0 in", "aux 0 out")` (`busCount = 2`, initial
state) is rejected with `LOOP_ERR` as claimed — but the bus graph is
*not* left exactly as it was: `AuxOutInUse[0]` was false before the
call and is true after it, because the argument-parse loop of
`bus_config` sets the flag before `check_bus_inst_config` runs (spec
§3.4 includes the `AuxOutInUse` flags in the bus graph, and they gate
aux-buffer allocation and `ToAuxPlayList` scheduling). -/
theorem bus_config_reject_mutates_cex :
    (bus_config 2 initBusState [0] [0]).2 = ErrCode.LOOP_ERR ∧
    initBusState.AuxOutInUse 0 = false ∧
    (bus_config 2 initBusState [0] [0]).1.AuxOutInUse 0 = true := by
  have hflag := cbBFS_err_head 2 initBusState.In_Config initBusState.HasParent [0]
    (fun _ => false) (fun _ => false) [] 0 [] [] rfl (List.mem_singleton.mpr rfl)
  rw [bus_config_eq]
  dsimp only
  rw [hflag]
  rw [if_pos rfl]
  refine ⟨rfl, rfl, ?_⟩
  show ([0].foldl (fun f k => Function.update f k true) initBusState.AuxOutInUse) 0
    = true
  rw [List.foldl_cons, List.foldl_nil, Function.update_same]

/-- State after `bus_config("A", "aux 0 in", "aux 1 out")`
(`busCount = 6`). -/
def busSt1 : BusState := (bus_config 6 initBusState [0] [1]).1

/-- State after a further `bus_config("B", "aux 3 in", "aux 2 out")`. -/
def busSt2 : BusState := (bus_config 6 busSt1 [3] [2]).1

/-- State after a further `bus_config("C", "aux 1 in", "aux 3 out")`. -/
def busSt3 : BusState := (bus_config 6 busSt2 [1] [3]).1

/-- Claim C2: after the four successful calls
`bus_config("A", "aux 0 in", "aux 1 out")`,
`bus_config("B", "aux 3 in", "aux 2 out")`,
`bus_config("C", "aux 1 in", "aux 3 out")`,
`bus_config("D", "aux 1-2 in", "aux 4 out")` (`busCount = 6`), the
parent graph is `In_Config[1] = [0]`, `In_Config[2] = [3]`,
`In_Config[3] = [1]`, `In_Config[4] = [1, 2]` (acyclic), and
`create_play_order` produces `AuxToAuxPlayList = [0, 3, 2, 1, 4]`:
bus 3 is played *before* its parent bus 1, although `1 ∈ In_Config[3]`
— the list is not a topological order of the aux subgraph.  The lone
childless bus is 4, and `bf_traverse(4)` discovers ancestors in BFS
order `4, 1, 2, 3` (3 is reached only through 2, after the direct
parent 1); reversing that discovery order yields `3, 2, 1, 4`, which
orders the cross-edge `1 → 3` backwards.  In a render tick bus 3's
buffer is therefore summed before its parent bus 1 contributes to it. -/
theorem aux_play_order_not_topological :
    (bus_config 6 initBusState [0] [1]).2 = ErrCode.NO_ERR ∧
    (bus_config 6 busSt1 [3] [2]).2 = ErrCode.NO_ERR ∧
    (bus_config 6 busSt2 [1] [3]).2 = ErrCode.NO_ERR ∧
    (bus_config 6 busSt3 [1, 2] [4]).2 = ErrCode.NO_ERR ∧
    1 ∈ (bus_config 6 busSt3 [1, 2] [4]).1.In_Config 3 ∧
    (bus_config 6 busSt3 [1, 2] [4]).1.AuxToAuxPlayList = [0, 3, 2, 1, 4] ∧
    ((bus_config 6 busSt3 [1, 2] [4]).1.AuxToAuxPlayList.indexOf 3 <
      (bus_config 6 busSt3 [1, 2] [4]).1.AuxToAuxPlayList.indexOf 1) := by
  have h : (bus_config 6 initBusState [0] [1]).2 = ErrCode.NO_ERR ∧
      (bus_config 6 busSt1 [3] [2]).2 = ErrCode.NO_ERR ∧
      (bus_config 6 busSt2 [1] [3]).2 = ErrCode.NO_ERR ∧
      (bus_config 6 busSt3 [1, 2] [4]).2 = ErrCode.NO_ERR ∧
      1 ∈ (bus_config 6 busSt3 [1, 2] [4]).1.In_Config 3 ∧
      (bus_config 6 busSt3 [1, 2] [4]).1.AuxToAuxPlayList = [0, 3, 2, 1, 4] := by
    simp [busSt3, busSt2, busSt1, bus_config, check_bus_inst_config, cbBFS,
      create_play_order, bf_traverse, insert_bus_slot, insert_out, insert_one,
      busWrapAppend, busSentinel, initBusState, Function.update,
      List.range_succ, List.foldl_append, List.foldl_cons, List.foldl_nil,
      List.filter_append, List.filter_cons]
  obtain ⟨h1, h2, h3, h4, h5, h6⟩ := h
  refine ⟨h1, h2, h3, h4, h5, h6, ?_⟩
  rw [h6]
  decide

end RTcmixSpec